import Mathlib

/-!
Verification development for the `win-file-scan` core: a shallow embedding of the
rotation-aware incremental tail reader (`TailReaderWin.hpp`) and of the latest-file
selector and watch loops (`FileWatchers.cpp`), together with proofs of the spec's
testable properties.

File contents are modelled as lists of bytes (`List Nat`); the newline byte is `10`,
the carriage return `13`.  Windows I/O outcomes (`CreateFileA`,
`GetFileInformationByHandle`, `GetFileSizeEx`) are passed to the embedded functions
as explicit parameters: `none` / `.error` models the failing call, `some` / `.ok`
the successful one.  Reads are modelled as delivering the requested bytes in full;
the transient zero-byte early return of `ReadFile` is not modelled.
-/

namespace WinFileScan

/-- The 3-byte UTF-8 byte-order mark `EF BB BF` tested by
`TailReaderWin::ReadAppendedLines` (lines 84-87 of `TailReaderWin.hpp`). -/
def bomBytes : List Nat := [0xEF, 0xBB, 0xBF]

/-- File identity fingerprint captured via `GetFileInformationByHandle`:
`dwVolumeSerialNumber`, `nFileIndexHigh`, `nFileIndexLow` (struct `FileId` in
`TailReaderWin.hpp`). -/
structure FileId where
  volume : Nat
  idxHi : Nat
  idxLo : Nat
  deriving Repr, DecidableEq

/-- The mutable members of one `TailReaderWin` cursor.  `hOpen` models
`_h != INVALID_HANDLE_VALUE`; `fileId = none` models `_hasFileId == false`. -/
structure TailState where
  offset : Nat
  carry : List Nat
  skipHeader : Bool
  headerSkipped : Bool
  bomStripped : Bool
  lastErr : Nat
  fileId : Option FileId
  hOpen : Bool
  deriving Repr, DecidableEq

namespace TailReaderWin

/-- Model of the constructor `TailReaderWin(path, skipHeader)`: all per-handle
state zeroed, no handle held. -/
def mkCursor (sh : Bool) : TailState :=
  { offset := 0, carry := [], skipHeader := sh, headerSkipped := false,
    bomStripped := false, lastErr := 0, fileId := none, hOpen := false }

/-- Model of `TailReaderWin::reset_state`: clears `_offset`, `_carry`,
`_bomStripped`, `_headerSkipped` and nothing else. -/
def reset_state (st : TailState) : TailState :=
  { st with offset := 0, carry := [], bomStripped := false, headerSkipped := false }

/-- CRLF normalisation performed on each extracted line:
`if (!line.empty() && line.back() == '\r') line.pop_back();`. -/
def stripCR (l : List Nat) : List Nat :=
  if l.getLast? = some 13 then l.dropLast else l

/-- Model of `carry.find('\n')` together with the split it induces: the bytes
strictly before the first newline and the bytes strictly after it, or `none`
when no newline is present. -/
def breakAtNL : List Nat → Option (List Nat × List Nat)
  | [] => none
  | b :: rest =>
    if b = 10 then some ([], rest)
    else
      match breakAtNL rest with
      | none => none
      | some pq => some (b :: pq.1, pq.2)

/-- Fuel-indexed form of the inner line-extraction loop of `ReadAppendedLines`
(lines 107-114): repeatedly split the carry at the next newline, normalising a
trailing carriage return on each extracted line.  Each split removes at least
the newline byte, so `c.length` fuel always suffices. -/
def extractLinesF : Nat → List Nat → List (List Nat) × List Nat
  | 0, c => ([], c)
  | fuel + 1, c =>
    match breakAtNL c with
    | none => ([], c)
    | some pq =>
      let r := extractLinesF fuel pq.2
      (stripCR pq.1 :: r.1, r.2)

/-- The line-extraction loop of `ReadAppendedLines`: extracted complete lines
and the residual carry. -/
def extractLines (c : List Nat) : List (List Nat) × List Nat :=
  extractLinesF c.length c

/-- One iteration of the read loop of `TailReaderWin::ReadAppendedLines`
(lines 70-115): append the freshly read chunk to the carry and advance the
offset; on the first non-empty carry strip a leading BOM if present and set
`_bomStripped` regardless; if a header skip is pending, consume up to the first
newline or, if none arrived yet, skip extraction for this chunk (`continue`);
finally extract complete lines. -/
def processChunk (st : TailState) (chunk : List Nat) : TailState × List (List Nat) :=
  let st1 : TailState :=
    { st with offset := st.offset + chunk.length, carry := st.carry ++ chunk }
  let st2 : TailState :=
    if st1.bomStripped = false ∧ st1.carry ≠ [] then
      { st1 with
        carry := if st1.carry.take 3 = bomBytes then st1.carry.drop 3 else st1.carry,
        bomStripped := true }
    else st1
  if st2.skipHeader = true ∧ st2.headerSkipped = false then
    match breakAtNL st2.carry with
    | some pq =>
      let st3 : TailState := { st2 with carry := pq.2, headerSkipped := true }
      let r := extractLines st3.carry
      ({ st3 with carry := r.2 }, r.1)
    | none => (st2, [])
  else
    let r := extractLines st2.carry
    ({ st2 with carry := r.2 }, r.1)

/-- The read loop over the successive chunks of one tick, collecting the
extracted lines in order. -/
def processChunks (st : TailState) : List (List Nat) → TailState × List (List Nat)
  | [] => (st, [])
  | c :: cs =>
    let r1 := processChunk st c
    let r2 := processChunks r1.1 cs
    (r2.1, r1.2 ++ r2.2)

/-- The read-buffer bound `kBuf = 64 * 1024` of `ReadAppendedLines`. -/
def kBuf : Nat := 64 * 1024

/-- Fuel-indexed splitting of the unread bytes into reads of at most `k` bytes,
mirroring `toRead = min(remaining, kBuf)`.  Each step consumes at least one byte
when `k > 0`, so `d.length` fuel always suffices. -/
def chunksOfF (k : Nat) : Nat → List Nat → List (List Nat)
  | _, [] => []
  | 0, d => [d]
  | fuel + 1, d => d.take k :: chunksOfF k fuel (d.drop k)

/-- Splitting of the unread bytes into reads of at most `k` bytes. -/
def chunksOf (k : Nat) (d : List Nat) : List (List Nat) := chunksOfF k d.length d

/-- Core of `TailReaderWin::ReadAppendedLines` after the open and replacement
steps, given a successful size query: truncation reset (lines 50-53),
steady-state early return (lines 54-56), then the chunked read loop from the
current offset to the end of `content`. -/
def ReadAppendedLinesCore (content : List Nat) (st : TailState) :
    TailState × List (List Nat) :=
  let fileSize := content.length
  let st1 := if fileSize < st.offset then reset_state st else st
  if fileSize = st1.offset then (st1, [])
  else processChunks st1 (chunksOf kBuf (content.drop st1.offset))

/-- Model of `TailReaderWin::open_internal`.  `res = none` models `CreateFileA`
failing with error code `err`; `res = some info` models a successful open where
`info` is the captured identity (`none` when `GetFileInformationByHandle`
fails, clearing `_hasFileId`).  On success the per-handle state is reset. -/
def open_internal (res : Option (Option FileId)) (err : Nat) (st : TailState) :
    TailState × Bool :=
  match res with
  | none => ({ st with lastErr := err }, false)
  | some info => (reset_state { st with hOpen := true, fileId := info }, true)

/-- Model of `TailReaderWin::Open`: a no-op returning `true` when a handle is
already held, otherwise `open_internal`. -/
def Open (res : Option (Option FileId)) (err : Nat) (st : TailState) :
    TailState × Bool :=
  if st.hOpen = true then (st, true) else open_internal res err st

/-- Model of `TailReaderWin::refresh_if_replaced`.  `probe` is the outcome of
the metadata-only `CreateFileA` probe (`none` = probe open failed, skip the
check); inside, `none` models `GetFileInformationByHandle` failing on the probe
handle, in which case `replaced` stays false.  On detected replacement the
handle is closed and `open_internal` runs with outcome `reopen`/`rerr`. -/
def refresh_if_replaced (probe : Option (Option FileId))
    (reopen : Option (Option FileId)) (rerr : Nat) (st : TailState) :
    TailState × Bool :=
  match st.fileId with
  | none => (st, false)
  | some fid =>
    match probe with
    | none => (st, false)
    | some probeInfo =>
      let replaced : Bool :=
        match probeInfo with
        | none => false
        | some pid => decide (pid ≠ fid)
      if replaced = true then
        ((open_internal reopen rerr { st with hOpen := false }).1, true)
      else (st, false)

/-- Model of the full `TailReaderWin::ReadAppendedLines`: ensure-open (early
return on failure), replacement check, size query (`sizeRes`: the current
content on success, the `GetLastError` code on failure), then the core. -/
def ReadAppendedLines (openRes : Option (Option FileId)) (oerr : Nat)
    (probe : Option (Option FileId)) (reopen : Option (Option FileId)) (rerr : Nat)
    (sizeRes : Except Nat (List Nat)) (st : TailState) :
    TailState × List (List Nat) :=
  let o := Open openRes oerr st
  if o.2 = false then (o.1, [])
  else
    let r := refresh_if_replaced probe reopen rerr o.1
    match sizeRes with
    | .error e => ({ r.1 with lastErr := e }, [])
    | .ok content => ReadAppendedLinesCore content r.1

/-- A polling run over a sequence of appends to a followed file: each tick
appends the next batch of bytes to the content and calls the read core, with
outputs concatenated in tick order. -/
def runAppends (st : TailState) (content : List Nat) :
    List (List Nat) → TailState × List (List Nat)
  | [] => (st, [])
  | a :: as =>
    let r1 := ReadAppendedLinesCore (content ++ a) st
    let r2 := runAppends r1.1 (content ++ a) as
    (r2.1, r1.2 ++ r2.2)

/-- Specification-side segmentation (from the spec's words, for the refinement
claims): scan the content byte by byte, emitting each newline-terminated
segment with a trailing carriage return normalised away; bytes after the last
newline form no segment. -/
def segmentsAux (cur : List Nat) : List Nat → List (List Nat)
  | [] => []
  | b :: rest =>
    if b = 10 then stripCR cur :: segmentsAux [] rest
    else segmentsAux (cur ++ [b]) rest

/-- Specification-side definition of the ordered sequence of newline-terminated
segments of a file content. -/
def specLineSegments (s : List Nat) : List (List Nat) := segmentsAux [] s

example : specLineSegments [104, 105, 10, 120, 13, 10, 121] = [[104, 105], [120]] := by
  decide

/-! Basic lemmas about `breakAtNL` and `extractLines`. -/

theorem breakAtNL_build {p : List Nat} (q : List Nat) (hp : 10 ∉ p) :
    breakAtNL (p ++ 10 :: q) = some (p, q) := by
  induction p with
  | nil => simp [breakAtNL]
  | cons b bs ih =>
    have hb : b ≠ 10 := fun h => hp (by simp [h])
    have hbs : 10 ∉ bs := fun h => hp (List.mem_cons_of_mem _ h)
    simp [breakAtNL, hb, ih hbs]

theorem breakAtNL_cases (s : List Nat) :
    (breakAtNL s = none ∧ 10 ∉ s) ∨
      ∃ p q, breakAtNL s = some (p, q) ∧ s = p ++ 10 :: q ∧ 10 ∉ p := by
  induction s with
  | nil => exact Or.inl ⟨rfl, by simp⟩
  | cons b rest ih =>
    by_cases hb : b = 10
    · subst hb
      exact Or.inr ⟨[], rest, by simp [breakAtNL], by simp, by simp⟩
    · rcases ih with ⟨h1, h2⟩ | ⟨p, q, h1, h2, h3⟩
      · refine Or.inl ⟨by simp [breakAtNL, hb, h1], ?_⟩
        simp only [List.mem_cons, not_or]
        exact ⟨fun hc => hb hc.symm, h2⟩
      · refine Or.inr ⟨b :: p, q, by simp [breakAtNL, hb, h1], by simp [h2], ?_⟩
        simp only [List.mem_cons, not_or]
        exact ⟨fun hc => hb hc.symm, h3⟩

theorem breakAtNL_none_iff {s : List Nat} : breakAtNL s = none ↔ 10 ∉ s := by
  rcases breakAtNL_cases s with ⟨h1, h2⟩ | ⟨p, q, h1, h2, _⟩
  · exact ⟨fun _ => h2, fun _ => h1⟩
  · constructor
    · intro h; rw [h1] at h; exact Option.noConfusion h
    · intro h; exact absurd (by simp [h2]) h

theorem breakAtNL_some_parts {s p q : List Nat} (h : breakAtNL s = some (p, q)) :
    s = p ++ 10 :: q ∧ 10 ∉ p := by
  rcases breakAtNL_cases s with ⟨h1, _⟩ | ⟨p', q', h1, h2, h3⟩
  · rw [h1] at h; exact Option.noConfusion h
  · rw [h1] at h
    obtain ⟨hp, hq⟩ : p' = p ∧ q' = q := by
      have := Option.some.inj h
      exact ⟨congrArg Prod.fst this, congrArg Prod.snd this⟩
    subst hp; subst hq
    exact ⟨h2, h3⟩

theorem breakAtNL_append_some {s t p q : List Nat} (h : breakAtNL s = some (p, q)) :
    breakAtNL (s ++ t) = some (p, q ++ t) := by
  obtain ⟨h1, h2⟩ := breakAtNL_some_parts h
  subst h1
  simpa using breakAtNL_build (q ++ t) h2

theorem extractLinesF_congr : ∀ (n f1 f2 : Nat) (s : List Nat),
    s.length ≤ n → s.length ≤ f1 → s.length ≤ f2 →
    extractLinesF f1 s = extractLinesF f2 s := by
  intro n
  induction n with
  | zero =>
    intro f1 f2 s hn _ _
    have : s = [] := List.length_eq_zero.mp (Nat.le_zero.mp hn)
    subst this
    cases f1 <;> cases f2 <;> simp [extractLinesF, breakAtNL]
  | succ n ih =>
    intro f1 f2 s hn h1 h2
    cases s with
    | nil => cases f1 <;> cases f2 <;> simp [extractLinesF, breakAtNL]
    | cons b rest =>
      cases f1 with
      | zero => exact absurd h1 (by simp)
      | succ g1 =>
        cases f2 with
        | zero => exact absurd h2 (by simp)
        | succ g2 =>
          simp only [extractLinesF]
          cases h : breakAtNL (b :: rest) with
          | none => rfl
          | some pq =>
            obtain ⟨hparts, -⟩ := breakAtNL_some_parts (p := pq.1) (q := pq.2)
              (by rw [h])
            have hlen : pq.2.length + (pq.1.length + 1) = (b :: rest).length := by
              rw [hparts]; simp; omega
            have hq : pq.2.length ≤ n := by
              have := hn; simp at this; omega
            have hq1 : pq.2.length ≤ g1 := by
              have := h1; simp at this; omega
            have hq2 : pq.2.length ≤ g2 := by
              have := h2; simp at this; omega
            show (stripCR pq.1 :: (extractLinesF g1 pq.2).1, (extractLinesF g1 pq.2).2)
                = (stripCR pq.1 :: (extractLinesF g2 pq.2).1, (extractLinesF g2 pq.2).2)
            rw [ih g1 g2 pq.2 hq hq1 hq2]

theorem extractLinesF_eq {f : Nat} {s : List Nat} (h : s.length ≤ f) :
    extractLinesF f s = extractLines s :=
  extractLinesF_congr s.length f s.length s le_rfl h le_rfl

theorem extractLines_of_none {s : List Nat} (h : breakAtNL s = none) :
    extractLines s = ([], s) := by
  unfold extractLines
  cases hn : s.length with
  | zero => simp [extractLinesF]
  | succ n => simp [extractLinesF, h]

theorem extractLines_of_some {s p q : List Nat} (h : breakAtNL s = some (p, q)) :
    extractLines s = (stripCR p :: (extractLines q).1, (extractLines q).2) := by
  obtain ⟨hparts, -⟩ := breakAtNL_some_parts h
  subst hparts
  show extractLinesF (p ++ 10 :: q).length (p ++ 10 :: q) = _
  have hlen : (p ++ 10 :: q).length = (p.length + q.length) + 1 := by simp; omega
  rw [hlen]
  simp only [extractLinesF, h]
  rw [extractLinesF_eq (f := p.length + q.length) (by omega)]

theorem extractLines_no_nl {s : List Nat} (h : 10 ∉ s) : extractLines s = ([], s) :=
  extractLines_of_none (breakAtNL_none_iff.mpr h)

theorem extractLines_rest_aux : ∀ (n : Nat) (s : List Nat), s.length ≤ n →
    10 ∉ (extractLines s).2 := by
  intro n
  induction n with
  | zero =>
    intro s hn
    have : s = [] := List.length_eq_zero.mp (Nat.le_zero.mp hn)
    subst this
    simp [extractLines, extractLinesF]
  | succ n ih =>
    intro s hn
    cases h : breakAtNL s with
    | none =>
      rw [extractLines_of_none h]
      exact breakAtNL_none_iff.mp h
    | some pq =>
      obtain ⟨hparts, -⟩ := breakAtNL_some_parts (p := pq.1) (q := pq.2) (by rw [h])
      rw [extractLines_of_some (p := pq.1) (q := pq.2) (by rw [h])]
      have : pq.2.length ≤ n := by
        have : s.length = pq.1.length + pq.2.length + 1 := by rw [hparts]; simp; omega
        omega
      exact ih pq.2 this

theorem extractLines_rest (s : List Nat) : 10 ∉ (extractLines s).2 :=
  extractLines_rest_aux s.length s le_rfl

theorem extractLines_append_aux : ∀ (n : Nat) (s t : List Nat), s.length ≤ n →
    extractLines (s ++ t) =
      ((extractLines s).1 ++ (extractLines ((extractLines s).2 ++ t)).1,
       (extractLines ((extractLines s).2 ++ t)).2) := by
  intro n
  induction n with
  | zero =>
    intro s t hn
    have : s = [] := List.length_eq_zero.mp (Nat.le_zero.mp hn)
    subst this
    simp [extractLines_no_nl (s := []) (by simp)]
  | succ n ih =>
    intro s t hn
    cases h : breakAtNL s with
    | none =>
      rw [extractLines_of_none h]
      simp
    | some pq =>
      have h' : breakAtNL s = some (pq.1, pq.2) := by rw [h]
      obtain ⟨hparts, -⟩ := breakAtNL_some_parts h'
      have hq : pq.2.length ≤ n := by
        have : s.length = pq.1.length + pq.2.length + 1 := by rw [hparts]; simp; omega
        omega
      rw [extractLines_of_some h', extractLines_of_some (breakAtNL_append_some h'),
        ih pq.2 t hq]
      simp

theorem extractLines_append (s t : List Nat) :
    extractLines (s ++ t) =
      ((extractLines s).1 ++ (extractLines ((extractLines s).2 ++ t)).1,
       (extractLines ((extractLines s).2 ++ t)).2) :=
  extractLines_append_aux s.length s t le_rfl

theorem segmentsAux_eq (s : List Nat) : ∀ cur, 10 ∉ cur →
    segmentsAux cur s = (extractLines (cur ++ s)).1 := by
  induction s with
  | nil =>
    intro cur h
    simp [segmentsAux, extractLines_no_nl h]
  | cons b rest ih =>
    intro cur h
    by_cases hb : b = 10
    · subst hb
      rw [segmentsAux, if_pos rfl, extractLines_of_some (breakAtNL_build rest h),
        ih [] (by simp)]
      simp
    · rw [segmentsAux, if_neg hb]
      have h' : 10 ∉ cur ++ [b] := by
        simp only [List.mem_append, List.mem_singleton, not_or]
        exact ⟨h, fun hc => hb hc.symm⟩
      rw [ih (cur ++ [b]) h']
      congr 2
      simp

theorem specLineSegments_eq (s : List Nat) : specLineSegments s = (extractLines s).1 := by
  simpa using segmentsAux_eq s [] (by simp)

/-! Helper lemmas about `take`, `drop` and the BOM check. -/

theorem take_append_le : ∀ (n : Nat) (l1 l2 : List Nat), n ≤ l1.length →
    (l1 ++ l2).take n = l1.take n := by
  intro n
  induction n with
  | zero => intro l1 l2 _; simp
  | succ m ih =>
    intro l1 l2 h
    cases l1 with
    | nil => simp at h
    | cons b bs =>
      simp only [List.cons_append, List.take_succ_cons]
      rw [ih bs l2 (by simpa using h)]

theorem drop_append_le : ∀ (n : Nat) (l1 l2 : List Nat), n ≤ l1.length →
    (l1 ++ l2).drop n = l1.drop n ++ l2 := by
  intro n
  induction n with
  | zero => intro l1 l2 _; simp
  | succ m ih =>
    intro l1 l2 h
    cases l1 with
    | nil => simp at h
    | cons b bs =>
      simp only [List.cons_append, List.drop_succ_cons]
      exact ih bs l2 (by simpa using h)

theorem bom_take_length {c : List Nat} (h : c.take 3 = bomBytes) : 3 ≤ c.length := by
  have := congrArg List.length h
  simp only [List.length_take, bomBytes] at this
  simp at this
  omega

theorem take3_bom_append {c r : List Nat} (h : c.take 3 = bomBytes) :
    (c ++ r).take 3 = bomBytes := by
  rw [take_append_le 3 c r (bom_take_length h)]
  exact h

theorem take3_ne_bom_of_append {c r : List Nat} (h : (c ++ r).take 3 ≠ bomBytes) :
    c.take 3 ≠ bomBytes :=
  fun hc => h (take3_bom_append hc)

/-- First non-empty element of a chunk sequence: the chunk whose arrival makes
the carry non-empty for the first time and therefore triggers the one-shot BOM
check. -/
def firstNonempty : List (List Nat) → Option (List Nat)
  | [] => none
  | c :: cs => if c = [] then firstNonempty cs else some c

/-! Characterisation of `processChunk` in each reachable configuration. -/

theorem processChunk_steady (st : TailState) (chunk : List Nat)
    (hbs : st.bomStripped = true) (hh : st.skipHeader = false ∨ st.headerSkipped = true) :
    processChunk st chunk =
      ({ st with offset := st.offset + chunk.length,
                 carry := (extractLines (st.carry ++ chunk)).2 },
       (extractLines (st.carry ++ chunk)).1) := by
  rcases hh with h | h <;> simp [processChunk, hbs, h]

theorem processChunk_header_none (st : TailState) (chunk : List Nat)
    (hbs : st.bomStripped = true) (hsh : st.skipHeader = true)
    (hhs : st.headerSkipped = false) (hnl : breakAtNL (st.carry ++ chunk) = none) :
    processChunk st chunk =
      ({ st with offset := st.offset + chunk.length, carry := st.carry ++ chunk }, []) := by
  simp [processChunk, hbs, hsh, hhs, hnl]

theorem processChunk_header_some (st : TailState) (chunk p q : List Nat)
    (hbs : st.bomStripped = true) (hsh : st.skipHeader = true)
    (hhs : st.headerSkipped = false) (hnl : breakAtNL (st.carry ++ chunk) = some (p, q)) :
    processChunk st chunk =
      ({ st with offset := st.offset + chunk.length, carry := (extractLines q).2,
                 headerSkipped := true }, (extractLines q).1) := by
  simp [processChunk, hbs, hsh, hhs, hnl]

theorem processChunk_empty_start (st : TailState) (hbs : st.bomStripped = false)
    (hc : st.carry = []) : processChunk st [] = (st, []) := by
  obtain ⟨o, ca, sh, hs, bs, le, fi, ho⟩ := st
  simp only at hbs hc
  subst hbs; subst hc
  cases sh <;> cases hs <;>
    simp [processChunk, breakAtNL, extractLines, extractLinesF]

theorem processChunk_first_nobom (st : TailState) (chunk : List Nat)
    (hbs : st.bomStripped = false) (hc : st.carry = []) (hne : chunk ≠ [])
    (hb3 : chunk.take 3 ≠ bomBytes)
    (hh : st.skipHeader = false ∨ st.headerSkipped = true) :
    processChunk st chunk =
      ({ st with offset := st.offset + chunk.length, carry := (extractLines chunk).2,
                 bomStripped := true }, (extractLines chunk).1) := by
  rcases hh with h | h <;> simp [processChunk, hbs, hc, hne, hb3, h]

theorem processChunk_first_bom (st : TailState) (chunk : List Nat)
    (hbs : st.bomStripped = false) (hc : st.carry = []) (hne : chunk ≠ [])
    (hb3 : chunk.take 3 = bomBytes)
    (hh : st.skipHeader = false ∨ st.headerSkipped = true) :
    processChunk st chunk =
      ({ st with offset := st.offset + chunk.length,
                 carry := (extractLines (chunk.drop 3)).2,
                 bomStripped := true }, (extractLines (chunk.drop 3)).1) := by
  rcases hh with h | h <;> simp [processChunk, hbs, hc, hne, hb3, h]

theorem processChunk_first_header_none (st : TailState) (chunk : List Nat)
    (hbs : st.bomStripped = false) (hc : st.carry = []) (hne : chunk ≠ [])
    (hb3 : chunk.take 3 ≠ bomBytes) (hsh : st.skipHeader = true)
    (hhs : st.headerSkipped = false) (hnl : breakAtNL chunk = none) :
    processChunk st chunk =
      ({ st with offset := st.offset + chunk.length, carry := chunk,
                 bomStripped := true }, []) := by
  simp [processChunk, hbs, hc, hne, hb3, hsh, hhs, hnl]

theorem processChunk_first_header_some (st : TailState) (chunk p q : List Nat)
    (hbs : st.bomStripped = false) (hc : st.carry = []) (hne : chunk ≠ [])
    (hb3 : chunk.take 3 ≠ bomBytes) (hsh : st.skipHeader = true)
    (hhs : st.headerSkipped = false) (hnl : breakAtNL chunk = some (p, q)) :
    processChunk st chunk =
      ({ st with offset := st.offset + chunk.length, carry := (extractLines q).2,
                 bomStripped := true, headerSkipped := true }, (extractLines q).1) := by
  simp [processChunk, hbs, hc, hne, hb3, hsh, hhs, hnl]

theorem processChunk_first_bom_header_none (st : TailState) (chunk : List Nat)
    (hbs : st.bomStripped = false) (hc : st.carry = []) (hne : chunk ≠ [])
    (hb3 : chunk.take 3 = bomBytes) (hsh : st.skipHeader = true)
    (hhs : st.headerSkipped = false) (hnl : breakAtNL (chunk.drop 3) = none) :
    processChunk st chunk =
      ({ st with offset := st.offset + chunk.length, carry := chunk.drop 3,
                 bomStripped := true }, []) := by
  simp [processChunk, hbs, hc, hne, hb3, hsh, hhs, hnl]

theorem processChunk_first_bom_header_some (st : TailState) (chunk p q : List Nat)
    (hbs : st.bomStripped = false) (hc : st.carry = []) (hne : chunk ≠ [])
    (hb3 : chunk.take 3 = bomBytes) (hsh : st.skipHeader = true)
    (hhs : st.headerSkipped = false) (hnl : breakAtNL (chunk.drop 3) = some (p, q)) :
    processChunk st chunk =
      ({ st with offset := st.offset + chunk.length, carry := (extractLines q).2,
                 bomStripped := true, headerSkipped := true }, (extractLines q).1) := by
  simp [processChunk, hbs, hc, hne, hb3, hsh, hhs, hnl]

/-! Lemmas about the bounded-size chunking of one tick's read. -/

theorem chunksOfF_flatten : ∀ (fuel k : Nat) (d : List Nat), 1 ≤ k → d.length ≤ fuel →
    (chunksOfF k fuel d).flatten = d := by
  intro fuel
  induction fuel with
  | zero =>
    intro k d _ hd
    have : d = [] := List.length_eq_zero.mp (Nat.le_zero.mp hd)
    subst this
    simp [chunksOfF]
  | succ f ih =>
    intro k d hk hd
    cases d with
    | nil => simp [chunksOfF]
    | cons b rest =>
      simp only [chunksOfF, List.flatten_cons]
      have hlen : ((b :: rest).drop k).length ≤ f := by
        simp only [List.length_drop, List.length_cons]
        simp only [List.length_cons] at hd
        omega
      rw [ih k ((b :: rest).drop k) hk hlen]
      exact List.take_append_drop k (b :: rest)

theorem chunksOf_flatten (k : Nat) (d : List Nat) (hk : 1 ≤ k) :
    (chunksOf k d).flatten = d :=
  chunksOfF_flatten d.length k d hk le_rfl

theorem chunksOf_first (k : Nat) (d : List Nat) (hk : 1 ≤ k) (hd : d ≠ []) :
    firstNonempty (chunksOf k d) = some (d.take k) := by
  cases d with
  | nil => exact absurd rfl hd
  | cons b rest =>
    cases k with
    | zero => omega
    | succ m =>
      simp [chunksOf, chunksOfF, firstNonempty]

/-! Aggregate behaviour of the read loop over a whole tick's chunk sequence. -/

theorem processChunks_steady : ∀ (cs : List (List Nat)) (st : TailState),
    st.bomStripped = true → (st.skipHeader = false ∨ st.headerSkipped = true) →
    10 ∉ st.carry →
    processChunks st cs =
      ({ st with offset := st.offset + cs.flatten.length,
                 carry := (extractLines (st.carry ++ cs.flatten)).2 },
       (extractLines (st.carry ++ cs.flatten)).1) := by
  intro cs
  induction cs with
  | nil =>
    intro st hbs hh hc
    obtain ⟨o, ca, sh, hs, bs, le, fi, ho⟩ := st
    simp only at hbs
    subst hbs
    simp [processChunks, extractLines_no_nl hc]
  | cons c cs ih =>
    intro st hbs hh hc
    simp only [processChunks, processChunk_steady st c hbs hh]
    rw [ih ({ st with offset := st.offset + c.length,
                      carry := (extractLines (st.carry ++ c)).2 } : TailState)
        hbs hh (extractLines_rest (st.carry ++ c))]
    have hE := extractLines_append (st.carry ++ c) cs.flatten
    have hE1 : (extractLines (st.carry ++ (c ++ cs.flatten))).1
        = (extractLines (st.carry ++ c)).1
          ++ (extractLines ((extractLines (st.carry ++ c)).2 ++ cs.flatten)).1 := by
      rw [← List.append_assoc, hE]
    have hE2 : (extractLines (st.carry ++ (c ++ cs.flatten))).2
        = (extractLines ((extractLines (st.carry ++ c)).2 ++ cs.flatten)).2 := by
      rw [← List.append_assoc, hE]
    simp [hE1, hE2, Nat.add_assoc]

theorem processChunks_header : ∀ (cs : List (List Nat)) (st : TailState),
    st.bomStripped = true → st.skipHeader = true → st.headerSkipped = false →
    10 ∉ st.carry →
    processChunks st cs =
      match breakAtNL (st.carry ++ cs.flatten) with
      | none =>
        ({ st with offset := st.offset + cs.flatten.length,
                   carry := st.carry ++ cs.flatten }, [])
      | some pq =>
        ({ st with offset := st.offset + cs.flatten.length,
                   carry := (extractLines pq.2).2, headerSkipped := true },
         (extractLines pq.2).1) := by
  intro cs
  induction cs with
  | nil =>
    intro st hbs hsh hhs hc
    have h0 : breakAtNL (st.carry ++ (List.flatten ([] : List (List Nat)))) = none := by
      simpa using breakAtNL_none_iff.mpr hc
    rw [h0]
    obtain ⟨o, ca, sh, hs, bs, le, fi, ho⟩ := st
    simp only at hbs hhs
    subst hbs; subst hhs
    simp [processChunks]
  | cons c cs ih =>
    intro st hbs hsh hhs hc
    cases hcnl : breakAtNL (st.carry ++ c) with
    | none =>
      simp only [processChunks, processChunk_header_none st c hbs hsh hhs hcnl]
      rw [ih ({ st with offset := st.offset + c.length,
                        carry := st.carry ++ c } : TailState)
          hbs hsh hhs (breakAtNL_none_iff.mp hcnl)]
      simp only [List.flatten_cons, ← List.append_assoc]
      cases breakAtNL (st.carry ++ c ++ cs.flatten) <;>
        simp [Nat.add_assoc]
    | some pq =>
      simp only [processChunks,
        processChunk_header_some st c pq.1 pq.2 hbs hsh hhs (by rw [hcnl])]
      rw [processChunks_steady cs
          ({ st with offset := st.offset + c.length,
                     carry := (extractLines pq.2).2, headerSkipped := true } : TailState)
          hbs (Or.inr rfl) (extractLines_rest pq.2)]
      have h2 : breakAtNL (st.carry ++ (c :: cs).flatten) = some (pq.1, pq.2 ++ cs.flatten) := by
        have := breakAtNL_append_some (t := cs.flatten)
          (by rw [hcnl] : breakAtNL (st.carry ++ c) = some (pq.1, pq.2))
        simpa [List.append_assoc] using this
      have hE := extractLines_append pq.2 cs.flatten
      have hE1 : (extractLines (pq.2 ++ cs.flatten)).1
          = (extractLines pq.2).1
            ++ (extractLines ((extractLines pq.2).2 ++ cs.flatten)).1 := by rw [hE]
      have hE2 : (extractLines (pq.2 ++ cs.flatten)).2
          = (extractLines ((extractLines pq.2).2 ++ cs.flatten)).2 := by rw [hE]
      rw [h2]
      simp [hE1, hE2, Nat.add_assoc]

theorem processChunks_start_steady : ∀ (cs : List (List Nat)) (st : TailState),
    st.bomStripped = false → st.carry = [] →
    (st.skipHeader = false ∨ st.headerSkipped = true) →
    cs.flatten.take 3 ≠ bomBytes →
    processChunks st cs =
      ({ st with offset := st.offset + cs.flatten.length,
                 carry := (extractLines cs.flatten).2,
                 bomStripped := decide (cs.flatten ≠ []) },
       (extractLines cs.flatten).1) := by
  intro cs
  induction cs with
  | nil =>
    intro st hbs hc _ _
    obtain ⟨o, ca, sh, hs, bs, le, fi, ho⟩ := st
    simp only at hbs hc
    subst hbs; subst hc
    simp [processChunks, extractLines, extractLinesF]
  | cons c cs ih =>
    intro st hbs hc hh hb3
    by_cases hce : c = []
    · subst hce
      simp only [processChunks, processChunk_empty_start st hbs hc]
      rw [ih st hbs hc hh (by simpa using hb3)]
      simp
    · have hb3c : c.take 3 ≠ bomBytes :=
        take3_ne_bom_of_append (r := cs.flatten) (by simpa using hb3)
      simp only [processChunks, processChunk_first_nobom st c hbs hc hce hb3c hh]
      rw [processChunks_steady cs
          ({ st with offset := st.offset + c.length, carry := (extractLines c).2,
                     bomStripped := true } : TailState)
          rfl hh (extractLines_rest c)]
      have hE := extractLines_append c cs.flatten
      have hE1 : (extractLines (c ++ cs.flatten)).1
          = (extractLines c).1
            ++ (extractLines ((extractLines c).2 ++ cs.flatten)).1 := by rw [hE]
      have hE2 : (extractLines (c ++ cs.flatten)).2
          = (extractLines ((extractLines c).2 ++ cs.flatten)).2 := by rw [hE]
      simp [hE1, hE2, Nat.add_assoc, hce]

theorem processChunks_start_header : ∀ (cs : List (List Nat)) (st : TailState),
    st.bomStripped = false → st.carry = [] → st.skipHeader = true →
    st.headerSkipped = false →
    (∀ c0, firstNonempty cs = some c0 → c0.take 3 ≠ bomBytes) →
    processChunks st cs =
      match breakAtNL cs.flatten with
      | none =>
        ({ st with offset := st.offset + cs.flatten.length, carry := cs.flatten,
                   bomStripped := decide (cs.flatten ≠ []) }, [])
      | some pq =>
        ({ st with offset := st.offset + cs.flatten.length,
                   carry := (extractLines pq.2).2, bomStripped := true,
                   headerSkipped := true }, (extractLines pq.2).1) := by
  intro cs
  induction cs with
  | nil =>
    intro st hbs hc _ hhs _
    obtain ⟨o, ca, sh, hs, bs, le, fi, ho⟩ := st
    simp only at hbs hc hhs
    subst hbs; subst hc; subst hhs
    simp [processChunks, breakAtNL]
  | cons c cs ih =>
    intro st hbs hc hsh hhs hfne
    by_cases hce : c = []
    · subst hce
      simp only [processChunks, processChunk_empty_start st hbs hc]
      rw [ih st hbs hc hsh hhs
          (fun c0 h0 => hfne c0 (by simpa [firstNonempty] using h0))]
      simp only [List.flatten_cons, List.nil_append]
    · have hb3c : c.take 3 ≠ bomBytes := hfne c (by simp [firstNonempty, hce])
      cases hnl : breakAtNL c with
      | none =>
        simp only [processChunks,
          processChunk_first_header_none st c hbs hc hce hb3c hsh hhs hnl]
        rw [processChunks_header cs
            ({ st with offset := st.offset + c.length, carry := c,
                       bomStripped := true } : TailState)
            rfl hsh hhs (breakAtNL_none_iff.mp hnl)]
        simp only [List.flatten_cons]
        cases hnl2 : breakAtNL (c ++ cs.flatten) <;>
          simp [Nat.add_assoc, hce]
      | some pq =>
        simp only [processChunks,
          processChunk_first_header_some st c pq.1 pq.2 hbs hc hce hb3c hsh hhs
            (by rw [hnl])]
        rw [processChunks_steady cs
            ({ st with offset := st.offset + c.length, carry := (extractLines pq.2).2,
                       bomStripped := true, headerSkipped := true } : TailState)
            rfl (Or.inr rfl) (extractLines_rest pq.2)]
        have h2 : breakAtNL ((c :: cs).flatten) = some (pq.1, pq.2 ++ cs.flatten) := by
          have := breakAtNL_append_some (t := cs.flatten)
            (by rw [hnl] : breakAtNL c = some (pq.1, pq.2))
          simpa using this
        have hE := extractLines_append pq.2 cs.flatten
        have hE1 : (extractLines (pq.2 ++ cs.flatten)).1
            = (extractLines pq.2).1
              ++ (extractLines ((extractLines pq.2).2 ++ cs.flatten)).1 := by rw [hE]
        have hE2 : (extractLines (pq.2 ++ cs.flatten)).2
            = (extractLines ((extractLines pq.2).2 ++ cs.flatten)).2 := by rw [hE]
        rw [h2]
        simp [hE1, hE2, Nat.add_assoc]

theorem processChunks_start_bom : ∀ (cs : List (List Nat)) (st : TailState),
    st.bomStripped = false → st.carry = [] →
    (st.skipHeader = false ∨ st.headerSkipped = true) →
    cs.flatten.take 3 = bomBytes →
    (∀ c0, firstNonempty cs = some c0 → 3 ≤ c0.length) →
    processChunks st cs =
      ({ st with offset := st.offset + cs.flatten.length,
                 carry := (extractLines (cs.flatten.drop 3)).2, bomStripped := true },
       (extractLines (cs.flatten.drop 3)).1) := by
  intro cs
  induction cs with
  | nil =>
    intro st _ _ _ hb3 _
    simp [bomBytes] at hb3
  | cons c cs ih =>
    intro st hbs hc hh hb3 hfne
    by_cases hce : c = []
    · subst hce
      simp only [processChunks, processChunk_empty_start st hbs hc]
      rw [ih st hbs hc hh (by simpa using hb3)
          (fun c0 h0 => hfne c0 (by simpa [firstNonempty] using h0))]
      simp
    · have hlen : 3 ≤ c.length := hfne c (by simp [firstNonempty, hce])
      have hb3c : c.take 3 = bomBytes := by
        rw [← take_append_le 3 c cs.flatten hlen]
        simpa using hb3
      simp only [processChunks, processChunk_first_bom st c hbs hc hce hb3c hh]
      rw [processChunks_steady cs
          ({ st with offset := st.offset + c.length,
                     carry := (extractLines (c.drop 3)).2,
                     bomStripped := true } : TailState)
          rfl hh (extractLines_rest (c.drop 3))]
      have hdrop : (c :: cs).flatten.drop 3 = c.drop 3 ++ cs.flatten := by
        simpa using drop_append_le 3 c cs.flatten hlen
      have hE := extractLines_append (c.drop 3) cs.flatten
      have hE1 : (extractLines (c.drop 3 ++ cs.flatten)).1
          = (extractLines (c.drop 3)).1
            ++ (extractLines ((extractLines (c.drop 3)).2 ++ cs.flatten)).1 := by rw [hE]
      have hE2 : (extractLines (c.drop 3 ++ cs.flatten)).2
          = (extractLines ((extractLines (c.drop 3)).2 ++ cs.flatten)).2 := by rw [hE]
      rw [hdrop]
      simp [hE1, hE2, Nat.add_assoc]

/-! Behaviour of one tick of `ReadAppendedLinesCore` on a purely growing file. -/

theorem ReadAppendedLinesCore_empty (prev : List Nat) (st : TailState)
    (hoff : st.offset = prev.length) :
    ReadAppendedLinesCore prev st = (st, []) := by
  simp only [ReadAppendedLinesCore]
  rw [if_neg (by omega : ¬ (prev.length < st.offset)), if_pos hoff.symm]

theorem ReadAppendedLinesCore_grow (prev a : List Nat) (st : TailState)
    (hoff : st.offset = prev.length) (hne : a ≠ []) :
    ReadAppendedLinesCore (prev ++ a) st = processChunks st (chunksOf kBuf a) := by
  have hna : a.length ≠ 0 := fun h => hne (List.length_eq_zero.mp h)
  have hcond1 : ¬ ((prev ++ a).length < st.offset) := by
    rw [hoff, List.length_append]; omega
  have hcond2 : (prev ++ a).length ≠ st.offset := by
    rw [hoff, List.length_append]; omega
  simp only [ReadAppendedLinesCore]
  rw [if_neg hcond1, if_neg hcond2, hoff, List.drop_left]

/-! Runs of the polling loop over a sequence of appends, in each reachable
cursor configuration. -/

theorem runAppends_steady : ∀ (apps : List (List Nat)) (st : TailState) (prev : List Nat),
    st.offset = prev.length → st.bomStripped = true →
    (st.skipHeader = false ∨ st.headerSkipped = true) → 10 ∉ st.carry →
    runAppends st prev apps =
      ({ st with offset := prev.length + apps.flatten.length,
                 carry := (extractLines (st.carry ++ apps.flatten)).2 },
       (extractLines (st.carry ++ apps.flatten)).1) := by
  intro apps
  induction apps with
  | nil =>
    intro st prev hoff hbs hh hc
    obtain ⟨o, ca, sh, hs, bs, le, fi, ho⟩ := st
    simp only at hoff hbs
    subst hbs; subst hoff
    simp [runAppends, extractLines_no_nl hc]
  | cons a as ih =>
    intro st prev hoff hbs hh hc
    by_cases hae : a = []
    · subst hae
      rw [runAppends, show prev ++ ([] : List Nat) = prev from by simp,
        ReadAppendedLinesCore_empty prev st hoff,
        ih st prev hoff hbs hh hc]
      simp
    · rw [runAppends, ReadAppendedLinesCore_grow prev a st hoff hae,
        processChunks_steady (chunksOf kBuf a) st hbs hh hc,
        chunksOf_flatten kBuf a (by norm_num [kBuf])]
      rw [ih ({ st with offset := st.offset + a.length,
                        carry := (extractLines (st.carry ++ a)).2 } : TailState)
          (prev ++ a) (by simp [hoff]) hbs hh (extractLines_rest (st.carry ++ a))]
      have hE := extractLines_append (st.carry ++ a) as.flatten
      have hE1 : (extractLines (st.carry ++ (a ++ as.flatten))).1
          = (extractLines (st.carry ++ a)).1
            ++ (extractLines ((extractLines (st.carry ++ a)).2 ++ as.flatten)).1 := by
        rw [← List.append_assoc, hE]
      have hE2 : (extractLines (st.carry ++ (a ++ as.flatten))).2
          = (extractLines ((extractLines (st.carry ++ a)).2 ++ as.flatten)).2 := by
        rw [← List.append_assoc, hE]
      simp [hE1, hE2, Nat.add_assoc, hoff]

theorem runAppends_header : ∀ (apps : List (List Nat)) (st : TailState) (prev : List Nat),
    st.offset = prev.length → st.bomStripped = true → st.skipHeader = true →
    st.headerSkipped = false → 10 ∉ st.carry →
    runAppends st prev apps =
      match breakAtNL (st.carry ++ apps.flatten) with
      | none =>
        ({ st with offset := prev.length + apps.flatten.length,
                   carry := st.carry ++ apps.flatten }, [])
      | some pq =>
        ({ st with offset := prev.length + apps.flatten.length,
                   carry := (extractLines pq.2).2, headerSkipped := true },
         (extractLines pq.2).1) := by
  intro apps
  induction apps with
  | nil =>
    intro st prev hoff hbs hsh hhs hc
    have h0 : breakAtNL (st.carry ++ (List.flatten ([] : List (List Nat)))) = none := by
      simpa using breakAtNL_none_iff.mpr hc
    rw [h0]
    obtain ⟨o, ca, sh, hs, bs, le, fi, ho⟩ := st
    simp only at hoff hbs hhs
    subst hbs; subst hoff; subst hhs
    simp [runAppends]
  | cons a as ih =>
    intro st prev hoff hbs hsh hhs hc
    by_cases hae : a = []
    · subst hae
      rw [runAppends, show prev ++ ([] : List Nat) = prev from by simp,
        ReadAppendedLinesCore_empty prev st hoff,
        ih st prev hoff hbs hsh hhs hc]
      simp only [List.flatten_cons, List.nil_append]
    · rw [runAppends, ReadAppendedLinesCore_grow prev a st hoff hae,
        processChunks_header (chunksOf kBuf a) st hbs hsh hhs hc,
        chunksOf_flatten kBuf a (by norm_num [kBuf])]
      cases hcnl : breakAtNL (st.carry ++ a) with
      | none =>
        simp only [hcnl]
        rw [ih ({ st with offset := st.offset + a.length,
                          carry := st.carry ++ a } : TailState)
            (prev ++ a) (by simp [hoff]) hbs hsh hhs (breakAtNL_none_iff.mp hcnl)]
        simp only [List.flatten_cons, ← List.append_assoc]
        cases breakAtNL (st.carry ++ a ++ as.flatten) <;>
          simp [Nat.add_assoc, hoff]
      | some pq =>
        simp only [hcnl]
        rw [runAppends_steady as
            ({ st with offset := st.offset + a.length,
                       carry := (extractLines pq.2).2, headerSkipped := true } : TailState)
            (prev ++ a) (by simp [hoff]) hbs (Or.inr rfl) (extractLines_rest pq.2)]
        have h2 : breakAtNL (st.carry ++ (a :: as).flatten) = some (pq.1, pq.2 ++ as.flatten) := by
          have := breakAtNL_append_some (t := as.flatten)
            (by rw [hcnl] : breakAtNL (st.carry ++ a) = some (pq.1, pq.2))
          simpa [List.append_assoc] using this
        have hE := extractLines_append pq.2 as.flatten
        have hE1 : (extractLines (pq.2 ++ as.flatten)).1
            = (extractLines pq.2).1
              ++ (extractLines ((extractLines pq.2).2 ++ as.flatten)).1 := by rw [hE]
        have hE2 : (extractLines (pq.2 ++ as.flatten)).2
            = (extractLines ((extractLines pq.2).2 ++ as.flatten)).2 := by rw [hE]
        rw [h2]
        simp [hE1, hE2, Nat.add_assoc, hoff]

theorem runAppends_start_steady : ∀ (apps : List (List Nat)) (st : TailState),
    st.offset = 0 → st.carry = [] → st.bomStripped = false →
    (st.skipHeader = false ∨ st.headerSkipped = true) →
    apps.flatten.take 3 ≠ bomBytes →
    runAppends st [] apps =
      ({ st with offset := apps.flatten.length,
                 carry := (extractLines apps.flatten).2,
                 bomStripped := decide (apps.flatten ≠ []) },
       (extractLines apps.flatten).1) := by
  intro apps
  induction apps with
  | nil =>
    intro st hoff hc hbs _ _
    obtain ⟨o, ca, sh, hs, bs, le, fi, ho⟩ := st
    simp only at hoff hc hbs
    subst hoff; subst hc; subst hbs
    simp [runAppends, extractLines, extractLinesF]
  | cons a as ih =>
    intro st hoff hc hbs hh hb3
    by_cases hae : a = []
    · subst hae
      rw [runAppends, show ([] : List Nat) ++ ([] : List Nat) = [] from rfl,
        ReadAppendedLinesCore_empty [] st (by simpa using hoff),
        ih st hoff hc hbs hh (by simpa using hb3)]
      simp
    · have hfl : (chunksOf kBuf a).flatten = a :=
        chunksOf_flatten kBuf a (by norm_num [kBuf])
      have hb3a : (chunksOf kBuf a).flatten.take 3 ≠ bomBytes := by
        rw [hfl]
        exact take3_ne_bom_of_append (r := as.flatten) (by simpa using hb3)
      rw [runAppends, ReadAppendedLinesCore_grow [] a st (by simpa using hoff) hae,
        processChunks_start_steady (chunksOf kBuf a) st hbs hc hh hb3a, hfl]
      rw [runAppends_steady as
          ({ st with offset := st.offset + a.length, carry := (extractLines a).2,
                     bomStripped := decide (a ≠ []) } : TailState)
          ([] ++ a) (by simp [hoff]) (by simp [hae]) hh (extractLines_rest a)]
      have hE := extractLines_append a as.flatten
      have hE1 : (extractLines (a ++ as.flatten)).1
          = (extractLines a).1
            ++ (extractLines ((extractLines a).2 ++ as.flatten)).1 := by rw [hE]
      have hE2 : (extractLines (a ++ as.flatten)).2
          = (extractLines ((extractLines a).2 ++ as.flatten)).2 := by rw [hE]
      simp [hE1, hE2, Nat.add_assoc, hoff, hae]

theorem runAppends_start_header : ∀ (apps : List (List Nat)) (st : TailState),
    st.offset = 0 → st.carry = [] → st.bomStripped = false →
    st.skipHeader = true → st.headerSkipped = false →
    (∀ a0, firstNonempty apps = some a0 → a0.take 3 ≠ bomBytes) →
    runAppends st [] apps =
      match breakAtNL apps.flatten with
      | none =>
        ({ st with offset := apps.flatten.length, carry := apps.flatten,
                   bomStripped := decide (apps.flatten ≠ []) }, [])
      | some pq =>
        ({ st with offset := apps.flatten.length, carry := (extractLines pq.2).2,
                   bomStripped := true, headerSkipped := true },
         (extractLines pq.2).1) := by
  intro apps
  induction apps with
  | nil =>
    intro st hoff hc hbs _ hhs _
    obtain ⟨o, ca, sh, hs, bs, le, fi, ho⟩ := st
    simp only at hoff hc hbs hhs
    subst hoff; subst hc; subst hbs; subst hhs
    simp [runAppends, breakAtNL]
  | cons a as ih =>
    intro st hoff hc hbs hsh hhs hfne
    by_cases hae : a = []
    · subst hae
      rw [runAppends, show ([] : List Nat) ++ ([] : List Nat) = [] from rfl,
        ReadAppendedLinesCore_empty [] st (by simpa using hoff),
        ih st hoff hc hbs hsh hhs
          (fun a0 h0 => hfne a0 (by simpa [firstNonempty] using h0))]
      simp only [List.flatten_cons, List.nil_append]
    · have hfl : (chunksOf kBuf a).flatten = a :=
        chunksOf_flatten kBuf a (by norm_num [kBuf])
      have hb3a : ∀ c0, firstNonempty (chunksOf kBuf a) = some c0 →
          c0.take 3 ≠ bomBytes := by
        intro c0 h0
        rw [chunksOf_first kBuf a (by norm_num [kBuf]) hae] at h0
        have hco := Option.some.inj h0
        rw [← hco, List.take_take, show min 3 kBuf = 3 from by norm_num [kBuf]]
        exact hfne a (by simp [firstNonempty, hae])
      rw [runAppends, ReadAppendedLinesCore_grow [] a st (by simpa using hoff) hae,
        processChunks_start_header (chunksOf kBuf a) st hbs hc hsh hhs hb3a, hfl]
      cases hnl : breakAtNL a with
      | none =>
        simp only [hnl]
        rw [runAppends_header as
            ({ st with offset := st.offset + a.length, carry := a,
                       bomStripped := decide (a ≠ []) } : TailState)
            ([] ++ a) (by simp [hoff]) (by simp [hae]) hsh hhs
            (breakAtNL_none_iff.mp hnl)]
        simp only [List.flatten_cons]
        cases hnl2 : breakAtNL (a ++ as.flatten) <;>
          simp [hnl2, Nat.add_assoc, hoff, hae]
      | some pq =>
        simp only [hnl]
        rw [runAppends_steady as
            ({ st with offset := st.offset + a.length,
                       carry := (extractLines pq.2).2,
                       bomStripped := true, headerSkipped := true } : TailState)
            ([] ++ a) (by simp [hoff]) rfl (Or.inr rfl) (extractLines_rest pq.2)]
        have h2 : breakAtNL ((a :: as).flatten) = some (pq.1, pq.2 ++ as.flatten) := by
          have := breakAtNL_append_some (t := as.flatten)
            (by rw [hnl] : breakAtNL a = some (pq.1, pq.2))
          simpa using this
        have hE := extractLines_append pq.2 as.flatten
        have hE1 : (extractLines (pq.2 ++ as.flatten)).1
            = (extractLines pq.2).1
              ++ (extractLines ((extractLines pq.2).2 ++ as.flatten)).1 := by rw [hE]
        have hE2 : (extractLines (pq.2 ++ as.flatten)).2
            = (extractLines ((extractLines pq.2).2 ++ as.flatten)).2 := by rw [hE]
        rw [h2]
        simp [hE1, hE2, Nat.add_assoc, hoff]

theorem runAppends_start_bom : ∀ (apps : List (List Nat)) (st : TailState),
    st.offset = 0 → st.carry = [] → st.bomStripped = false →
    (st.skipHeader = false ∨ st.headerSkipped = true) →
    apps.flatten.take 3 = bomBytes →
    (∀ c0, firstNonempty apps = some c0 → 3 ≤ c0.length) →
    runAppends st [] apps =
      ({ st with offset := apps.flatten.length,
                 carry := (extractLines (apps.flatten.drop 3)).2,
                 bomStripped := true },
       (extractLines (apps.flatten.drop 3)).1) := by
  intro apps
  induction apps with
  | nil =>
    intro st _ _ _ _ hb3 _
    simp [bomBytes] at hb3
  | cons a as ih =>
    intro st hoff hc hbs hh hb3 hfne
    by_cases hae : a = []
    · subst hae
      rw [runAppends, show ([] : List Nat) ++ ([] : List Nat) = [] from rfl,
        ReadAppendedLinesCore_empty [] st (by simpa using hoff),
        ih st hoff hc hbs hh (by simpa using hb3)
          (fun c0 h0 => hfne c0 (by simpa [firstNonempty] using h0))]
      simp
    · have hlen : 3 ≤ a.length := hfne a (by simp [firstNonempty, hae])
      have hfl : (chunksOf kBuf a).flatten = a :=
        chunksOf_flatten kBuf a (by norm_num [kBuf])
      have hb3a : (chunksOf kBuf a).flatten.take 3 = bomBytes := by
        rw [hfl, ← take_append_le 3 a as.flatten hlen]
        simpa using hb3
      have hfc : ∀ c0, firstNonempty (chunksOf kBuf a) = some c0 → 3 ≤ c0.length := by
        intro c0 h0
        rw [chunksOf_first kBuf a (by norm_num [kBuf]) hae] at h0
        have hco := Option.some.inj h0
        rw [← hco]
        simp only [List.length_take, kBuf]
        omega
      rw [runAppends, ReadAppendedLinesCore_grow [] a st (by simpa using hoff) hae,
        processChunks_start_bom (chunksOf kBuf a) st hbs hc hh hb3a hfc, hfl]
      rw [runAppends_steady as
          ({ st with offset := st.offset + a.length,
                     carry := (extractLines (a.drop 3)).2,
                     bomStripped := true } : TailState)
          ([] ++ a) (by simp [hoff]) rfl hh (extractLines_rest (a.drop 3))]
      have hdrop : (a :: as).flatten.drop 3 = a.drop 3 ++ as.flatten := by
        simpa using drop_append_le 3 a as.flatten hlen
      have hE := extractLines_append (a.drop 3) as.flatten
      have hE1 : (extractLines (a.drop 3 ++ as.flatten)).1
          = (extractLines (a.drop 3)).1
            ++ (extractLines ((extractLines (a.drop 3)).2 ++ as.flatten)).1 := by rw [hE]
      have hE2 : (extractLines (a.drop 3 ++ as.flatten)).2
          = (extractLines ((extractLines (a.drop 3)).2 ++ as.flatten)).2 := by rw [hE]
      rw [hdrop]
      simp [hE1, hE2, Nat.add_assoc, hoff]

/-- Variant of `ReadAppendedLinesCore_grow` for a fresh cursor at offset 0. -/
theorem ReadAppendedLinesCore_fresh (content : List Nat) (st : TailState)
    (hoff : st.offset = 0) (hne : content ≠ []) :
    ReadAppendedLinesCore content st = processChunks st (chunksOf kBuf content) := by
  have := ReadAppendedLinesCore_grow [] content st (by simpa using hoff) hne
  simpa using this

theorem firstNonempty_flatten_eq : ∀ (cs : List (List Nat)) (c0 : List Nat),
    firstNonempty cs = some c0 → ∃ r, cs.flatten = c0 ++ r := by
  intro cs
  induction cs with
  | nil => intro c0 h0; exact Option.noConfusion h0
  | cons c cs ih =>
    intro c0 h0
    by_cases hce : c = []
    · subst hce
      obtain ⟨r, hr⟩ := ih c0 (by simpa [firstNonempty] using h0)
      exact ⟨r, by simp [hr]⟩
    · rw [show firstNonempty (c :: cs) = some c from by simp [firstNonempty, hce]] at h0
      have hc0 := Option.some.inj h0
      subst hc0
      exact ⟨cs.flatten, by simp⟩

theorem bom_no_nl : (10 : Nat) ∉ bomBytes := by decide

theorem breakAtNL_left_none {s t : List Nat} (hs : 10 ∉ s)
    (ht : breakAtNL t = none) : breakAtNL (s ++ t) = none := by
  rw [breakAtNL_none_iff]
  intro hm
  rcases List.mem_append.mp hm with h | h
  · exact hs h
  · exact (breakAtNL_none_iff.mp ht) h

theorem breakAtNL_left_some {s t p q : List Nat} (hs : 10 ∉ s)
    (ht : breakAtNL t = some (p, q)) : breakAtNL (s ++ t) = some (s ++ p, q) := by
  obtain ⟨hparts, hp⟩ := breakAtNL_some_parts ht
  subst hparts
  rw [show s ++ (p ++ 10 :: q) = (s ++ p) ++ 10 :: q from by simp]
  refine breakAtNL_build q ?_
  intro hm
  rcases List.mem_append.mp hm with h | h
  · exact hs h
  · exact hp h

/-- A leading 3-byte BOM lies entirely inside the first newline-terminated
segment, so dropping the first extracted line gives the same sequence whether
or not the BOM was removed first. -/
theorem extractLines_bom_drop_one {d : List Nat} (hb : d.take 3 = bomBytes) :
    ((extractLines d).1).drop 1 = ((extractLines (d.drop 3)).1).drop 1 := by
  have hd : d = bomBytes ++ d.drop 3 := by
    conv_lhs => rw [← List.take_append_drop 3 d]
    rw [hb]
  cases hnl : breakAtNL (d.drop 3) with
  | none =>
    have h1 : breakAtNL d = none := by
      have := breakAtNL_left_none (s := bomBytes) bom_no_nl hnl
      rw [← hd] at this
      exact this
    rw [extractLines_of_none h1, extractLines_of_none hnl]
  | some pq =>
    have h1 : breakAtNL d = some (bomBytes ++ pq.1, pq.2) := by
      have := breakAtNL_left_some (s := bomBytes) bom_no_nl
        (by rw [hnl] : breakAtNL (d.drop 3) = some (pq.1, pq.2))
      rw [← hd] at this
      exact this
    rw [extractLines_of_some h1,
      extractLines_of_some (s := d.drop 3) (p := pq.1) (q := pq.2) (by rw [hnl])]
    simp

theorem processChunks_start_bom_header : ∀ (cs : List (List Nat)) (st : TailState),
    st.bomStripped = false → st.carry = [] → st.skipHeader = true →
    st.headerSkipped = false → cs.flatten.take 3 = bomBytes →
    (∀ c0, firstNonempty cs = some c0 → 3 ≤ c0.length) →
    processChunks st cs =
      match breakAtNL (cs.flatten.drop 3) with
      | none =>
        ({ st with offset := st.offset + cs.flatten.length,
                   carry := cs.flatten.drop 3, bomStripped := true }, [])
      | some pq =>
        ({ st with offset := st.offset + cs.flatten.length,
                   carry := (extractLines pq.2).2, bomStripped := true,
                   headerSkipped := true }, (extractLines pq.2).1) := by
  intro cs
  induction cs with
  | nil =>
    intro st _ _ _ _ hb3 _
    simp [bomBytes] at hb3
  | cons c cs ih =>
    intro st hbs hc hsh hhs hb3 hfne
    by_cases hce : c = []
    · subst hce
      simp only [processChunks, processChunk_empty_start st hbs hc]
      rw [ih st hbs hc hsh hhs (by simpa using hb3)
          (fun c0 h0 => hfne c0 (by simpa [firstNonempty] using h0))]
      simp only [List.flatten_cons, List.nil_append]
    · have hlen : 3 ≤ c.length := hfne c (by simp [firstNonempty, hce])
      have hb3c : c.take 3 = bomBytes := by
        rw [← take_append_le 3 c cs.flatten hlen]
        simpa using hb3
      have hdrop : (c :: cs).flatten.drop 3 = c.drop 3 ++ cs.flatten := by
        simpa using drop_append_le 3 c cs.flatten hlen
      cases hnl : breakAtNL (c.drop 3) with
      | none =>
        simp only [processChunks,
          processChunk_first_bom_header_none st c hbs hc hce hb3c hsh hhs hnl]
        rw [processChunks_header cs
            ({ st with offset := st.offset + c.length, carry := c.drop 3,
                       bomStripped := true } : TailState)
            rfl hsh hhs (breakAtNL_none_iff.mp hnl)]
        rw [hdrop]
        cases hnl2 : breakAtNL (c.drop 3 ++ cs.flatten) <;>
          simp [hnl2, Nat.add_assoc]
      | some pq =>
        simp only [processChunks,
          processChunk_first_bom_header_some st c pq.1 pq.2 hbs hc hce hb3c hsh hhs
            (by rw [hnl])]
        rw [processChunks_steady cs
            ({ st with offset := st.offset + c.length,
                       carry := (extractLines pq.2).2, bomStripped := true,
                       headerSkipped := true } : TailState)
            rfl (Or.inr rfl) (extractLines_rest pq.2)]
        have h2 : breakAtNL ((c :: cs).flatten.drop 3)
            = some (pq.1, pq.2 ++ cs.flatten) := by
          rw [hdrop]
          exact breakAtNL_append_some (t := cs.flatten) (by rw [hnl])
        have hE := extractLines_append pq.2 cs.flatten
        have hE1 : (extractLines (pq.2 ++ cs.flatten)).1
            = (extractLines pq.2).1
              ++ (extractLines ((extractLines pq.2).2 ++ cs.flatten)).1 := by rw [hE]
        have hE2 : (extractLines (pq.2 ++ cs.flatten)).2
            = (extractLines ((extractLines pq.2).2 ++ cs.flatten)).2 := by rw [hE]
        rw [h2]
        simp [hE1, hE2, Nat.add_assoc]

theorem runAppends_start_bom_header : ∀ (apps : List (List Nat)) (st : TailState),
    st.offset = 0 → st.carry = [] → st.bomStripped = false →
    st.skipHeader = true → st.headerSkipped = false →
    apps.flatten.take 3 = bomBytes →
    (∀ a0, firstNonempty apps = some a0 → 3 ≤ a0.length) →
    runAppends st [] apps =
      match breakAtNL (apps.flatten.drop 3) with
      | none =>
        ({ st with offset := apps.flatten.length, carry := apps.flatten.drop 3,
                   bomStripped := true }, [])
      | some pq =>
        ({ st with offset := apps.flatten.length, carry := (extractLines pq.2).2,
                   bomStripped := true, headerSkipped := true },
         (extractLines pq.2).1) := by
  intro apps
  induction apps with
  | nil =>
    intro st _ _ _ _ _ hb3 _
    simp [bomBytes] at hb3
  | cons a as ih =>
    intro st hoff hc hbs hsh hhs hb3 hfne
    by_cases hae : a = []
    · subst hae
      rw [runAppends, show ([] : List Nat) ++ ([] : List Nat) = [] from rfl,
        ReadAppendedLinesCore_empty [] st (by simpa using hoff),
        ih st hoff hc hbs hsh hhs (by simpa using hb3)
          (fun a0 h0 => hfne a0 (by simpa [firstNonempty] using h0))]
      simp only [List.flatten_cons, List.nil_append]
    · have hlen : 3 ≤ a.length := hfne a (by simp [firstNonempty, hae])
      have hfl : (chunksOf kBuf a).flatten = a :=
        chunksOf_flatten kBuf a (by norm_num [kBuf])
      have hb3a : (chunksOf kBuf a).flatten.take 3 = bomBytes := by
        rw [hfl, ← take_append_le 3 a as.flatten hlen]
        simpa using hb3
      have hfc : ∀ c0, firstNonempty (chunksOf kBuf a) = some c0 → 3 ≤ c0.length := by
        intro c0 h0
        rw [chunksOf_first kBuf a (by norm_num [kBuf]) hae] at h0
        have hco := Option.some.inj h0
        rw [← hco]
        simp only [List.length_take, kBuf]
        omega
      have hdropa : (a :: as).flatten.drop 3 = a.drop 3 ++ as.flatten := by
        simpa using drop_append_le 3 a as.flatten hlen
      rw [runAppends, ReadAppendedLinesCore_grow [] a st (by simpa using hoff) hae,
        processChunks_start_bom_header (chunksOf kBuf a) st hbs hc hsh hhs hb3a hfc,
        hfl]
      cases hnl : breakAtNL (a.drop 3) with
      | none =>
        simp only [hnl]
        rw [runAppends_header as
            ({ st with offset := st.offset + a.length, carry := a.drop 3,
                       bomStripped := true } : TailState)
            ([] ++ a) (by simp [hoff]) rfl hsh hhs (breakAtNL_none_iff.mp hnl)]
        rw [hdropa]
        cases hnl2 : breakAtNL (a.drop 3 ++ as.flatten) <;>
          simp [hnl2, Nat.add_assoc, hoff]
      | some pq =>
        simp only [hnl]
        rw [runAppends_steady as
            ({ st with offset := st.offset + a.length,
                       carry := (extractLines pq.2).2, bomStripped := true,
                       headerSkipped := true } : TailState)
            ([] ++ a) (by simp [hoff]) rfl (Or.inr rfl) (extractLines_rest pq.2)]
        have h2 : breakAtNL ((a :: as).flatten.drop 3)
            = some (pq.1, pq.2 ++ as.flatten) := by
          rw [hdropa]
          exact breakAtNL_append_some (t := as.flatten) (by rw [hnl])
        have hE := extractLines_append pq.2 as.flatten
        have hE1 : (extractLines (pq.2 ++ as.flatten)).1
            = (extractLines pq.2).1
              ++ (extractLines ((extractLines pq.2).2 ++ as.flatten)).1 := by rw [hE]
        have hE2 : (extractLines (pq.2 ++ as.flatten)).2
            = (extractLines ((extractLines pq.2).2 ++ as.flatten)).2 := by rw [hE]
        rw [h2]
        simp [hE1, hE2, Nat.add_assoc, hoff]

/-- The content with a leading byte-order mark removed when one is present. -/
def dropLeadBom (d : List Nat) : List Nat :=
  if d.take 3 = bomBytes then d.drop 3 else d

/-- Closed form of one read from a freshly opened or reset cursor: within a
single tick a leading BOM is always stripped (the first 64-KiB read carries at
least 3 bytes whenever the file does), the pending header line is dropped when
header skipping is requested, and the complete lines of the remaining bytes
are delivered. -/
theorem ReadAppendedLinesCore_reset_out (content : List Nat) (st : TailState)
    (hoff : st.offset = 0) (hc : st.carry = []) (hbs : st.bomStripped = false)
    (hhs : st.headerSkipped = false) :
    (ReadAppendedLinesCore content st).2
      = if st.skipHeader = true
        then ((extractLines (dropLeadBom content)).1).drop 1
        else (extractLines (dropLeadBom content)).1 := by
  by_cases hce : content = []
  · subst hce
    rw [ReadAppendedLinesCore_empty [] st (by simpa using hoff)]
    cases hsh : st.skipHeader <;>
      simp [dropLeadBom, bomBytes, extractLines, extractLinesF]
  · rw [ReadAppendedLinesCore_fresh content st hoff hce]
    have hfl : (chunksOf kBuf content).flatten = content :=
      chunksOf_flatten kBuf content (by norm_num [kBuf])
    by_cases hb : content.take 3 = bomBytes
    · have hfc3 : ∀ c0, firstNonempty (chunksOf kBuf content) = some c0 →
          3 ≤ c0.length := by
        intro c0 h0
        rw [chunksOf_first kBuf content (by norm_num [kBuf]) hce] at h0
        have hco := Option.some.inj h0
        have hlen3 : 3 ≤ content.length := bom_take_length hb
        rw [← hco]
        simp only [List.length_take, kBuf]
        omega
      cases hsh : st.skipHeader with
      | false =>
        rw [processChunks_start_bom (chunksOf kBuf content) st hbs hc (Or.inl hsh)
            (by rw [hfl]; exact hb) hfc3, hfl]
        simp [dropLeadBom, hb]
      | true =>
        rw [processChunks_start_bom_header (chunksOf kBuf content) st hbs hc hsh hhs
            (by rw [hfl]; exact hb) hfc3, hfl]
        cases hnl : breakAtNL (content.drop 3) with
        | none =>
          simp [hnl, dropLeadBom, hb, extractLines_of_none hnl]
        | some pq =>
          simp [hnl, dropLeadBom, hb,
            extractLines_of_some (p := pq.1) (q := pq.2) (by rw [hnl])]
    · have hfcn : ∀ c0, firstNonempty (chunksOf kBuf content) = some c0 →
          c0.take 3 ≠ bomBytes := by
        intro c0 h0
        rw [chunksOf_first kBuf content (by norm_num [kBuf]) hce] at h0
        have hco := Option.some.inj h0
        rw [← hco, List.take_take, show min 3 kBuf = 3 from by norm_num [kBuf]]
        exact hb
      cases hsh : st.skipHeader with
      | false =>
        rw [processChunks_start_steady (chunksOf kBuf content) st hbs hc (Or.inl hsh)
            (by rw [hfl]; exact hb), hfl]
        simp [dropLeadBom, hb]
      | true =>
        rw [processChunks_start_header (chunksOf kBuf content) st hbs hc hsh hhs hfcn,
          hfl]
        cases hnl : breakAtNL content with
        | none =>
          simp [hnl, dropLeadBom, hb, extractLines_of_none hnl]
        | some pq =>
          simp [hnl, dropLeadBom, hb,
            extractLines_of_some (p := pq.1) (q := pq.2) (by rw [hnl])]

/-- Each read-loop iteration advances the offset by exactly the number of bytes
appended to the carry, in every configuration. -/
theorem processChunk_offset (st : TailState) (c : List Nat) :
    (processChunk st c).1.offset = st.offset + c.length := by
  simp only [processChunk]
  repeat' split
  all_goals simp

theorem processChunks_offset : ∀ (cs : List (List Nat)) (st : TailState),
    (processChunks st cs).1.offset = st.offset + cs.flatten.length := by
  intro cs
  induction cs with
  | nil => intro st; simp [processChunks]
  | cons c cs ih =>
    intro st
    simp only [processChunks]
    show (processChunks (processChunk st c).1 cs).1.offset = _
    rw [ih (processChunk st c).1, processChunk_offset]
    simp [Nat.add_assoc]

/-- After every call of the read core the offset equals the length of the
content that was visible during the call. -/
theorem ReadAppendedLinesCore_offset (content : List Nat) (st : TailState) :
    (ReadAppendedLinesCore content st).1.offset = content.length := by
  simp only [ReadAppendedLinesCore]
  by_cases h1 : content.length < st.offset
  · rw [if_pos h1]
    by_cases h2 : content.length = (reset_state st).offset
    · rw [if_pos h2]
      exact h2.symm
    · rw [if_neg h2]
      show (processChunks (reset_state st)
        (chunksOf kBuf (content.drop (reset_state st).offset))).1.offset = _
      rw [processChunks_offset, chunksOf_flatten _ _ (by norm_num [kBuf])]
      simp [reset_state]
  · rw [if_neg h1]
    by_cases h2 : content.length = st.offset
    · rw [if_pos h2]
      exact h2.symm
    · rw [if_neg h2]
      show (processChunks st (chunksOf kBuf (content.drop st.offset))).1.offset = _
      rw [processChunks_offset, chunksOf_flatten _ _ (by norm_num [kBuf])]
      simp only [List.length_drop]
      omega

/-- Claim C1, counterexample: for a file whose content is the UTF-8 BOM followed
by `a\n`, delivered in one append, the delivered lines are `[[97]]` (the BOM is
stripped), which differs from the newline-terminated segments of the raw
content (`[[0xEF, 0xBB, 0xBF, 97]]`).  The universally quantified claim
therefore fails on BOM-leading contents. -/
theorem C1_counterexample :
    (runAppends (mkCursor false) [] [[0xEF, 0xBB, 0xBF, 97, 10]]).2
      ≠ specLineSegments ([[0xEF, 0xBB, 0xBF, 97, 10]] : List (List Nat)).flatten := by
  decide

/-- Claim C1 (amended): chunking-invariance of tailing.  For every sequence of
appends to a followed file whose content does not begin with the UTF-8
byte-order mark, with header skipping not requested, the concatenation across
all polling ticks of the lines delivered by `ReadAppendedLinesCore` equals the
ordered sequence of newline-terminated segments of the whole content — for
every partition of the content into appends, and with the reader's own
64-KiB-bounded chunking applied inside each tick. -/
theorem C1_chunking_invariance (apps : List (List Nat))
    (hbom : apps.flatten.take 3 ≠ bomBytes) :
    (runAppends (mkCursor false) [] apps).2 = specLineSegments apps.flatten := by
  rw [specLineSegments_eq,
    runAppends_start_steady apps (mkCursor false) rfl rfl rfl (Or.inl rfl) hbom]

/-- Witness for `C1_chunking_invariance` at a concrete two-tick run. -/
theorem C1_chunking_invariance_witness :
    ([[104, 10, 1], [13, 10, 50]] : List (List Nat)).flatten.take 3 ≠ bomBytes
    ∧ (runAppends (mkCursor false) [] [[104, 10, 1], [13, 10, 50]]).2
        = specLineSegments ([[104, 10, 1], [13, 10, 50]] : List (List Nat)).flatten :=
  ⟨by decide, C1_chunking_invariance [[104, 10, 1], [13, 10, 50]] (by decide)⟩

/-- Claim C2, counterexample: the file content begins with the 3-byte UTF-8 BOM,
but under the partition that delivers only the first BOM byte in the first tick,
the reader marks the BOM as handled without stripping it (`_bomStripped` is set
whenever the carry is non-empty, even when fewer than 3 bytes arrived), and the
BOM bytes are later delivered inside the first line. -/
theorem C2_counterexample :
    ([[0xEF], [0xBB, 0xBF, 97, 10]] : List (List Nat)).flatten.take 3 = bomBytes
    ∧ (runAppends (mkCursor false) [] [[0xEF], [0xBB, 0xBF, 97, 10]]).2
        = [[0xEF, 0xBB, 0xBF, 97]] := by
  decide

/-- Claim C2 (amended): (i) for a BOM-leading content, provided the first
non-empty append carries at least the full 3-byte mark, the BOM is stripped
exactly once and the delivered lines are exactly the segments of the content
with the BOM removed (so no delivered line contains the leading BOM bytes);
(ii) when header skip is requested, unconditionally — for every content,
BOM-leading or not, and for every partition into appends — the first
newline-terminated segment is consumed exactly once and never delivered: the
delivered lines are exactly the segments of the content with the first segment
dropped (a leading BOM, whether stripped by the one-shot check or left inside
the header line by a short first read, is consumed with that first segment and
never delivered). -/
theorem C2_bom_and_header (apps : List (List Nat)) :
    (apps.flatten.take 3 = bomBytes →
      (∀ c0, firstNonempty apps = some c0 → 3 ≤ c0.length) →
      (runAppends (mkCursor false) [] apps).2
        = specLineSegments (apps.flatten.drop 3))
    ∧ (runAppends (mkCursor true) [] apps).2
        = (specLineSegments apps.flatten).drop 1 := by
  constructor
  · intro hb3 hfne
    rw [specLineSegments_eq,
      runAppends_start_bom apps (mkCursor false) rfl rfl rfl (Or.inl rfl) hb3 hfne]
  · rw [specLineSegments_eq]
    by_cases hb : apps.flatten.take 3 = bomBytes
    · by_cases hfne3 : ∀ a0, firstNonempty apps = some a0 → 3 ≤ a0.length
      · rw [runAppends_start_bom_header apps (mkCursor true) rfl rfl rfl rfl rfl
            hb hfne3, extractLines_bom_drop_one hb]
        cases hnl : breakAtNL (apps.flatten.drop 3) with
        | none => simp [hnl, extractLines_of_none hnl]
        | some pq =>
          simp [hnl,
            extractLines_of_some (s := apps.flatten.drop 3) (p := pq.1) (q := pq.2)
              (by rw [hnl])]
      · push_neg at hfne3
        obtain ⟨a0, ha0, hlen⟩ := hfne3
        have hfcn : ∀ b0, firstNonempty apps = some b0 → b0.take 3 ≠ bomBytes := by
          intro b0 hb0 hb3b
          rw [ha0] at hb0
          have hab := Option.some.inj hb0
          subst hab
          exact absurd (bom_take_length hb3b) (by omega)
        rw [runAppends_start_header apps (mkCursor true) rfl rfl rfl rfl rfl hfcn]
        cases hnl : breakAtNL apps.flatten with
        | none => simp [hnl, extractLines_of_none hnl]
        | some pq =>
          simp [hnl,
            extractLines_of_some (s := apps.flatten) (p := pq.1) (q := pq.2)
              (by rw [hnl])]
    · have hfcn : ∀ b0, firstNonempty apps = some b0 → b0.take 3 ≠ bomBytes := by
        intro b0 hb0 hb3b
        obtain ⟨r, hr⟩ := firstNonempty_flatten_eq apps b0 hb0
        exact hb (by rw [hr]; exact take3_bom_append hb3b)
      rw [runAppends_start_header apps (mkCursor true) rfl rfl rfl rfl rfl hfcn]
      cases hnl : breakAtNL apps.flatten with
      | none => simp [hnl, extractLines_of_none hnl]
      | some pq =>
        simp [hnl,
          extractLines_of_some (s := apps.flatten) (p := pq.1) (q := pq.2)
            (by rw [hnl])]

/-- Witness for `C2_bom_and_header` at concrete runs: a BOM file delivered with
a first append of 4 bytes, a header-skipped file over two ticks, and a
header-skipped BOM file whose first tick carries only one BOM byte. -/
theorem C2_bom_and_header_witness :
    (runAppends (mkCursor false) [] [[0xEF, 0xBB, 0xBF, 104], [10, 49, 10]]).2
      = specLineSegments
          (([[0xEF, 0xBB, 0xBF, 104], [10, 49, 10]] : List (List Nat)).flatten.drop 3)
    ∧ (runAppends (mkCursor true) [] [[104, 10, 49], [10, 50, 10]]).2
      = (specLineSegments ([[104, 10, 49], [10, 50, 10]] : List (List Nat)).flatten).drop 1
    ∧ (runAppends (mkCursor true) [] [[0xEF], [0xBB, 0xBF, 104, 10, 49, 10]]).2
      = (specLineSegments
          ([[0xEF], [0xBB, 0xBF, 104, 10, 49, 10]] : List (List Nat)).flatten).drop 1 :=
  ⟨(C2_bom_and_header [[0xEF, 0xBB, 0xBF, 104], [10, 49, 10]]).1 (by decide) (by decide),
   (C2_bom_and_header [[104, 10, 49], [10, 50, 10]]).2,
   (C2_bom_and_header [[0xEF], [0xBB, 0xBF, 104, 10, 49, 10]]).2⟩

/-- Claim C3, counterexample: a truncation observed by a header-skipping cursor
(the configuration `CreateWatchAppend` uses) resets `_headerSkipped`, so the
next read consumes the first line of the new shorter content as a fresh header
and the delivered lines are not the lines of the new content from byte 0: for
the 4-byte new content `h\n1\n` only `["1"]` is delivered, not `["h","1"]`. -/
theorem C3_counterexample :
    ([104, 10, 49, 10] : List Nat).length
        < ({ offset := 9, carry := [55], skipHeader := true, headerSkipped := true,
             bomStripped := true, lastErr := 0, fileId := none,
             hOpen := true } : TailState).offset
    ∧ (ReadAppendedLinesCore [104, 10, 49, 10]
          ({ offset := 9, carry := [55], skipHeader := true, headerSkipped := true,
             bomStripped := true, lastErr := 0, fileId := none,
             hOpen := true } : TailState)).2
        = [[49]]
    ∧ [[49]] ≠ specLineSegments [104, 10, 49, 10] := by
  decide

/-- Claim C3 (amended): truncation recovery.  Whenever the queried size is
strictly below the cursor offset, the call behaves exactly as the same call
after `reset_state` (offset 0, carry cleared, both one-shot flags cleared), the
offset ends at the new content's length, and the delivered lines are a function
of the new content and the header-skip setting alone — no byte of the
pre-truncation carry can influence them.  Without header skipping, on content
without a leading BOM, they equal exactly the newline-terminated segments of
the new content from byte 0; with header skipping the first segment of the new
content is consumed anew as a header (and a fresh leading BOM is re-stripped),
so the delivered lines are the segments of the new content with the first one
dropped. -/
theorem C3_truncation_recovery (st : TailState) (content : List Nat)
    (htr : content.length < st.offset) :
    ReadAppendedLinesCore content st = ReadAppendedLinesCore content (reset_state st)
    ∧ (ReadAppendedLinesCore content st).1.offset = content.length
    ∧ (∀ st2 : TailState, content.length < st2.offset →
        st2.skipHeader = st.skipHeader →
        (ReadAppendedLinesCore content st2).2 = (ReadAppendedLinesCore content st).2)
    ∧ (st.skipHeader = false → content.take 3 ≠ bomBytes →
        (ReadAppendedLinesCore content st).2 = specLineSegments content)
    ∧ (st.skipHeader = true →
        (ReadAppendedLinesCore content st).2 = (specLineSegments content).drop 1) := by
  have hreset : ∀ st' : TailState, content.length < st'.offset →
      ReadAppendedLinesCore content st'
        = ReadAppendedLinesCore content (reset_state st') := by
    intro st' htr'
    simp only [ReadAppendedLinesCore]
    rw [if_pos htr',
      if_neg (by simp [reset_state] : ¬ (content.length < (reset_state st').offset))]
  have hout : ∀ st' : TailState, content.length < st'.offset →
      (ReadAppendedLinesCore content st').2
        = if st'.skipHeader = true
          then ((extractLines (dropLeadBom content)).1).drop 1
          else (extractLines (dropLeadBom content)).1 := by
    intro st' htr'
    rw [hreset st' htr']
    have h0 := ReadAppendedLinesCore_reset_out content (reset_state st')
      (by simp [reset_state]) (by simp [reset_state]) (by simp [reset_state])
      (by simp [reset_state])
    simpa [reset_state] using h0
  refine ⟨hreset st htr, ReadAppendedLinesCore_offset content st, ?_, ?_, ?_⟩
  · intro st2 htr2 hsh2
    rw [hout st2 htr2, hout st htr, hsh2]
  · intro hsh hbom
    rw [hout st htr, hsh, specLineSegments_eq]
    simp [dropLeadBom, hbom]
  · intro hsh
    rw [hout st htr, hsh, specLineSegments_eq]
    by_cases hb : content.take 3 = bomBytes
    · simp only [dropLeadBom, if_pos hb, if_pos rfl]
      exact (extractLines_bom_drop_one hb).symm
    · simp [dropLeadBom, hb]

/-- Witness for `C3_truncation_recovery`: a non-header cursor at offset 100
with a stale carry over a file truncated to `1\n2\r\n`, and a header-skipping
cursor at offset 9 over a file truncated to `h\n1\n`. -/
theorem C3_truncation_recovery_witness :
    (ReadAppendedLinesCore [49, 10, 50, 13, 10]
        ({ offset := 100, carry := [55, 56], skipHeader := false,
           headerSkipped := true, bomStripped := true, lastErr := 0,
           fileId := none, hOpen := true } : TailState)).2
      = specLineSegments [49, 10, 50, 13, 10]
    ∧ (ReadAppendedLinesCore [104, 10, 49, 10]
        ({ offset := 9, carry := [55], skipHeader := true, headerSkipped := true,
           bomStripped := true, lastErr := 1, fileId := none,
           hOpen := true } : TailState)).2
      = (specLineSegments [104, 10, 49, 10]).drop 1 :=
  ⟨(C3_truncation_recovery
      ({ offset := 100, carry := [55, 56], skipHeader := false,
         headerSkipped := true, bomStripped := true, lastErr := 0,
         fileId := none, hOpen := true } : TailState)
      [49, 10, 50, 13, 10] (by decide)).2.2.2.1 rfl (by decide),
   (C3_truncation_recovery
      ({ offset := 9, carry := [55], skipHeader := true, headerSkipped := true,
         bomStripped := true, lastErr := 1, fileId := none,
         hOpen := true } : TailState)
      [104, 10, 49, 10] (by decide)).2.2.2.2 rfl⟩

/-- Claim C4: replacement detection.  If the cursor holds a captured identity
and the probe reports a different identity, `refresh_if_replaced` closes and
reopens the handle, resetting all per-handle state (offset 0, cleared carry)
and storing the new identity; the subsequent read then delivers the lines of
the new file's content from byte 0 — in particular also when the new content's
length equals the old offset (see the witness).  If the identity probe itself
fails, the state is returned unchanged with no reopen. -/
theorem C4_replacement_detection (st : TailState) (fid pid : FileId)
    (newInfo : Option FileId) (rerr : Nat) (content : List Nat)
    (hfid : st.fileId = some fid) (hne : pid ≠ fid) :
    refresh_if_replaced (some (some pid)) (some newInfo) rerr st
      = ({ st with offset := 0, carry := [], bomStripped := false,
                   headerSkipped := false, hOpen := true, fileId := newInfo }, true)
    ∧ (∀ (reopen : Option (Option FileId)) (rerr2 : Nat),
        refresh_if_replaced none reopen rerr2 st = (st, false))
    ∧ (st.skipHeader = false → content.take 3 ≠ bomBytes →
        (ReadAppendedLinesCore content
          (refresh_if_replaced (some (some pid)) (some newInfo) rerr st).1).2
          = specLineSegments content) := by
  have href : refresh_if_replaced (some (some pid)) (some newInfo) rerr st
      = ({ st with offset := 0, carry := [], bomStripped := false,
                   headerSkipped := false, hOpen := true, fileId := newInfo }, true) := by
    simp only [refresh_if_replaced, hfid, open_internal, reset_state]
    simp [hne]
  refine ⟨href, fun reopen rerr2 => by simp [refresh_if_replaced, hfid], ?_⟩
  intro hsh hbom
  simp only [href]
  by_cases hce : content = []
  · subst hce
    rw [ReadAppendedLinesCore_empty []
        ({ st with offset := 0, carry := [], bomStripped := false,
                   headerSkipped := false, hOpen := true, fileId := newInfo } : TailState)
        rfl]
    simp [specLineSegments, segmentsAux]
  · rw [ReadAppendedLinesCore_fresh content
        ({ st with offset := 0, carry := [], bomStripped := false,
                   headerSkipped := false, hOpen := true, fileId := newInfo } : TailState)
        rfl hce,
      processChunks_start_steady (chunksOf kBuf content)
        ({ st with offset := 0, carry := [], bomStripped := false,
                   headerSkipped := false, hOpen := true, fileId := newInfo } : TailState)
        rfl rfl (Or.inl hsh)
        (by rwa [chunksOf_flatten kBuf content (by norm_num [kBuf])]),
      chunksOf_flatten kBuf content (by norm_num [kBuf]), specLineSegments_eq]

/-- Witness for `C4_replacement_detection` in which the new file's size equals
the old offset (both 4), so size comparison alone could not detect the
replacement: the read still restarts from byte 0 of the new content. -/
theorem C4_replacement_detection_witness :
    (ReadAppendedLinesCore [49, 10, 50, 10]
        (refresh_if_replaced (some (some ⟨7, 8, 10⟩)) (some (some ⟨7, 8, 10⟩)) 0
          ({ offset := 4, carry := [51], skipHeader := false,
             headerSkipped := false, bomStripped := true, lastErr := 0,
             fileId := some ⟨7, 8, 9⟩, hOpen := true } : TailState)).1).2
      = specLineSegments [49, 10, 50, 10] :=
  (C4_replacement_detection
    ({ offset := 4, carry := [51], skipHeader := false,
       headerSkipped := false, bomStripped := true, lastErr := 0,
       fileId := some ⟨7, 8, 9⟩, hOpen := true } : TailState)
    ⟨7, 8, 9⟩ ⟨7, 8, 10⟩ (some ⟨7, 8, 10⟩) 0 [49, 10, 50, 10]
    rfl (by decide)).2.2 rfl (by decide)

/-- Claim C5: cursor state invariant.  (i) The read loop advances the offset by
exactly the total number of bytes appended to the carry buffer; (ii)
`reset_state` simultaneously zeroes the offset and clears the carry (and the
two one-shot flags), touching nothing else; (iii) the offset is moved backward
only by passing through `reset_state` — a call that observes a size below the
offset behaves exactly as the same call after `reset_state`; (iv) after every
read the offset equals the number of bytes of the current content consumed into
the carry since the handle's last open or reset, namely the whole content
length. -/
theorem C5_cursor_state_invariant (st : TailState) (cs : List (List Nat))
    (content : List Nat) :
    (processChunks st cs).1.offset = st.offset + cs.flatten.length
    ∧ reset_state st = { st with offset := 0, carry := [], bomStripped := false,
                                 headerSkipped := false }
    ∧ (content.length < st.offset →
        ReadAppendedLinesCore content st
          = ReadAppendedLinesCore content (reset_state st))
    ∧ (ReadAppendedLinesCore content st).1.offset = content.length := by
  refine ⟨processChunks_offset cs st, rfl, ?_, ReadAppendedLinesCore_offset content st⟩
  intro htr
  simp only [ReadAppendedLinesCore]
  rw [if_pos htr,
    if_neg (by simp [reset_state] : ¬ (content.length < (reset_state st).offset))]

/-- Witness for `C5_cursor_state_invariant` at a concrete state, chunk list and
content (the truncation conjunct discharged at a content shorter than the
offset). -/
theorem C5_cursor_state_invariant_witness :
    (processChunks
        ({ offset := 2, carry := [51], skipHeader := false, headerSkipped := false,
           bomStripped := true, lastErr := 0, fileId := none, hOpen := true } : TailState)
        [[49, 10], [50]]).1.offset = 2 + ([[49, 10], [50]] : List (List Nat)).flatten.length
    ∧ ReadAppendedLinesCore [49]
        ({ offset := 2, carry := [51], skipHeader := false, headerSkipped := false,
           bomStripped := true, lastErr := 0, fileId := none, hOpen := true } : TailState)
      = ReadAppendedLinesCore [49]
          (reset_state
            ({ offset := 2, carry := [51], skipHeader := false, headerSkipped := false,
               bomStripped := true, lastErr := 0, fileId := none,
               hOpen := true } : TailState)) :=
  ⟨(C5_cursor_state_invariant
      ({ offset := 2, carry := [51], skipHeader := false, headerSkipped := false,
         bomStripped := true, lastErr := 0, fileId := none, hOpen := true } : TailState)
      [[49, 10], [50]] [49]).1,
   (C5_cursor_state_invariant
      ({ offset := 2, carry := [51], skipHeader := false, headerSkipped := false,
         bomStripped := true, lastErr := 0, fileId := none, hOpen := true } : TailState)
      [[49, 10], [50]] [49]).2.2.1 (by decide)⟩

/-- Claim C8: a failing size query is side-effect free.  With a handle held and
a replacement check that leaves the state unchanged (identity matches, probe
failure, or no captured identity), a failing `GetFileSizeEx` makes
`ReadAppendedLines` record the error code and return no lines, with offset,
carry and both one-shot flags exactly as before the call. -/
theorem C8_size_query_failure (st : TailState) (e : Nat)
    (openRes probe reopen : Option (Option FileId)) (oerr rerr : Nat)
    (hopen : st.hOpen = true)
    (hstable : (refresh_if_replaced probe reopen rerr st).1 = st) :
    ReadAppendedLines openRes oerr probe reopen rerr (.error e) st
      = ({ st with lastErr := e }, []) := by
  simp [ReadAppendedLines, Open, hopen, hstable]

/-- Witness for `C8_size_query_failure`: an open cursor with no captured
identity (so the replacement check is skipped), failing size query with error
code 5. -/
theorem C8_size_query_failure_witness :
    ReadAppendedLines none 0 none none 0 (Except.error 5)
        ({ offset := 7, carry := [51, 52], skipHeader := true, headerSkipped := true,
           bomStripped := true, lastErr := 0, fileId := none, hOpen := true } : TailState)
      = (({ offset := 7, carry := [51, 52], skipHeader := true, headerSkipped := true,
            bomStripped := true, lastErr := 5, fileId := none,
            hOpen := true } : TailState),
         []) :=
  C8_size_query_failure
    ({ offset := 7, carry := [51, 52], skipHeader := true, headerSkipped := true,
       bomStripped := true, lastErr := 0, fileId := none, hOpen := true } : TailState)
    5 none none none 0 0 rfl (by decide)

/-- Claim C10: `Open` is a frame-preserving no-op on an already-open cursor —
it returns `true` and the whole state (offset, carry, flags, stored identity)
is unchanged; per-handle state is reset only when `open_internal` actually
creates a new handle, and a failed `CreateFileA` in `open_internal` changes
nothing but the recorded error code. -/
theorem C10_open_noop (st : TailState) (res : Option (Option FileId)) (err : Nat)
    (hopen : st.hOpen = true) :
    Open res err st = (st, true)
    ∧ (∀ (st2 : TailState) (err2 : Nat), st2.hOpen = false →
        Open none err2 st2 = ({ st2 with lastErr := err2 }, false))
    ∧ (∀ (st2 : TailState) (info : Option FileId) (err2 : Nat), st2.hOpen = false →
        Open (some info) err2 st2
          = ({ st2 with offset := 0, carry := [], bomStripped := false,
                        headerSkipped := false, hOpen := true, fileId := info }, true)) := by
  refine ⟨by simp [Open, hopen], fun st2 err2 h2 => by simp [Open, open_internal, h2], ?_⟩
  intro st2 info err2 h2
  simp [Open, open_internal, reset_state, h2]

/-- Witness for `C10_open_noop` at a concrete open cursor. -/
theorem C10_open_noop_witness :
    Open (some none) 3
        ({ offset := 9, carry := [50], skipHeader := false, headerSkipped := true,
           bomStripped := true, lastErr := 1, fileId := some ⟨1, 2, 3⟩,
           hOpen := true } : TailState)
      = (({ offset := 9, carry := [50], skipHeader := false, headerSkipped := true,
            bomStripped := true, lastErr := 1, fileId := some ⟨1, 2, 3⟩,
            hOpen := true } : TailState), true) :=
  (C10_open_noop
    ({ offset := 9, carry := [50], skipHeader := false, headerSkipped := true,
       bomStripped := true, lastErr := 1, fileId := some ⟨1, 2, 3⟩,
       hOpen := true } : TailState) (some none) 3 rfl).1

example :
    (ReadAppendedLinesCore [104, 105, 10, 120] (mkCursor false)).2 = [[104, 105]] := by
  decide

example :
    (ReadAppendedLinesCore [104, 10, 49, 10, 50] (mkCursor true)).2 = [[49]] := by
  decide

end TailReaderWin

namespace FileWatchers

/-- ASCII lowercasing of one byte, as `tolower` on an unsigned char in the C
locale. -/
def toLowerByte (b : Nat) : Nat := if 65 ≤ b ∧ b ≤ 90 then b + 32 else b

/-- Model of the `endsCsv` lambda in `findLatestCsvByPrefix`: at least 4 bytes
and the last 4 bytes lowercase to `.csv` (`46, 99, 115, 118`). -/
def endsCsv (s : List Nat) : Bool :=
  if s.length < 4 then false
  else decide ((s.drop (s.length - 4)).map toLowerByte = [46, 99, 115, 118])

/-- One directory entry as reported by `FindFirstFileA` / `FindNextFileA`:
file name, directory attribute, and the 64-bit last-write time given by
`toU64(ffd.ftLastWriteTime)`. -/
structure DirEntry where
  name : List Nat
  isDir : Bool
  time : Nat
  deriving Repr, DecidableEq

/-- Lexicographic strict order on byte strings, as `std::string` comparison. -/
def ltBytes : List Nat → List Nat → Bool
  | [], [] => false
  | [], _ :: _ => true
  | _ :: _, [] => false
  | a :: as, b :: bs =>
    if a < b then true else if b < a then false else ltBytes as bs

/-- `name > bestName` of the source is lexicographic greater-than. -/
def gtBytes (a b : List Nat) : Bool := ltBytes b a

theorem ltBytes_irrefl : ∀ a : List Nat, ltBytes a a = false := by
  intro a
  induction a with
  | nil => rfl
  | cons x xs ih => simp [ltBytes, ih]

theorem ltBytes_nil_right : ∀ a : List Nat, ltBytes a [] = false := by
  intro a
  cases a <;> rfl

theorem ltBytes_trans : ∀ (a b c : List Nat),
    ltBytes a b = true → ltBytes b c = true → ltBytes a c = true := by
  intro a
  induction a with
  | nil =>
    intro b c hab hbc
    cases b with
    | nil => simp [ltBytes] at hab
    | cons y ys =>
      cases c with
      | nil => simp [ltBytes] at hbc
      | cons z zs => simp [ltBytes]
  | cons x xs ih =>
    intro b c hab hbc
    cases b with
    | nil => simp [ltBytes] at hab
    | cons y ys =>
      cases c with
      | nil => simp [ltBytes] at hbc
      | cons z zs =>
        simp only [ltBytes] at hab hbc ⊢
        by_cases hxy : x < y
        · by_cases hyz : y < z
          · simp [Nat.lt_trans hxy hyz]
          · by_cases hzy : z < y
            · simp [hyz, hzy] at hbc
            · have hyz2 : y = z :=
                Nat.le_antisymm (Nat.le_of_not_lt hzy) (Nat.le_of_not_lt hyz)
              subst hyz2
              simp [hxy]
        · by_cases hyx : y < x
          · simp [hxy, hyx] at hab
          · have hxy2 : x = y :=
              Nat.le_antisymm (Nat.le_of_not_lt hyx) (Nat.le_of_not_lt hxy)
            subst hxy2
            simp only [Nat.lt_irrefl, if_false] at hab
            by_cases hyz : x < z
            · simp [hyz]
            · by_cases hzy : z < x
              · simp [hyz, hzy] at hbc
              · have hyz2 : x = z :=
                  Nat.le_antisymm (Nat.le_of_not_lt hzy) (Nat.le_of_not_lt hyz)
                subst hyz2
                simp only [Nat.lt_irrefl, if_false] at hbc ⊢
                exact ih ys zs hab hbc

theorem ltBytes_total : ∀ (a b : List Nat),
    ltBytes a b = false → ltBytes b a = false → a = b := by
  intro a
  induction a with
  | nil =>
    intro b hab _
    cases b with
    | nil => rfl
    | cons y ys => simp [ltBytes] at hab
  | cons x xs ih =>
    intro b hab hba
    cases b with
    | nil => simp [ltBytes] at hba
    | cons y ys =>
      simp only [ltBytes] at hab hba
      by_cases hxy : x < y
      · simp [hxy] at hab
      · by_cases hyx : y < x
        · simp [hxy, hyx] at hba
        · have hxy2 : x = y :=
            Nat.le_antisymm (Nat.le_of_not_lt hyx) (Nat.le_of_not_lt hxy)
          subst hxy2
          simp only [Nat.lt_irrefl, if_false] at hab hba
          rw [ih ys hab hba]

theorem ltBytes_asymm (a b : List Nat) (h : ltBytes a b = true) :
    ltBytes b a = false := by
  cases hx : ltBytes b a with
  | false => rfl
  | true =>
    have h2 := ltBytes_trans a b a h hx
    rw [ltBytes_irrefl] at h2
    exact Bool.noConfusion h2

/-- Model of `joinPath`: join with a single backslash (`92`) unless the
directory is empty or already ends in a separator (`92` or `47`). -/
def joinPath (dir name : List Nat) : List Nat :=
  if dir = [] then name
  else if dir.getLast? = some 92 ∨ dir.getLast? = some 47 then dir ++ name
  else dir ++ 92 :: name

/-- Body of the enumeration loop of `findLatestCsvByPrefix`: directories and
names not ending in `.csv` are skipped; otherwise the running best
(last-write-time, name) pair is replaced when the entry's time is strictly
newer, or equal with a lexicographically greater name. -/
def findStep (best : Nat × List Nat) (e : DirEntry) : Nat × List Nat :=
  if e.isDir = true then best
  else if endsCsv e.name = false then best
  else if best.1 < e.time ∨ (e.time = best.1 ∧ gtBytes e.name best.2 = true) then
    (e.time, e.name)
  else best

/-- Model of `findLatestCsvByPrefix`.  `dirAccessible = false` models
`FindFirstFileA` failing outright; the search pattern `prefix + "*"` is
modelled by keeping the entries whose name starts with `pfx`, and an empty
match set also leaves `FindFirstFileA` with no handle.  The loop folds
`findStep` from the sentinel `(0, [])`; an empty best name yields "none",
otherwise the best name joined to the directory. -/
def findLatestCsvByPrefix (dirAccessible : Bool) (entries : List DirEntry)
    (dir pfx : List Nat) : Option (List Nat) :=
  if dirAccessible = false then none
  else
    let ms := entries.filter (fun e => pfx.isPrefixOf e.name)
    if ms = [] then none
    else
      let best := ms.foldl findStep (0, [])
      if best.2 = [] then none else some (joinPath dir best.2)

/-! The comparison used by the selection loop is a strict total order on
(last-write-time, name) keys; the loop computes its maximum. -/

theorem keyBeats_trans {t1 t2 t3 : Nat} {n1 n2 n3 : List Nat}
    (h12 : t1 < t2 ∨ (t2 = t1 ∧ gtBytes n2 n1 = true))
    (h23 : t2 < t3 ∨ (t3 = t2 ∧ gtBytes n3 n2 = true)) :
    t1 < t3 ∨ (t3 = t1 ∧ gtBytes n3 n1 = true) := by
  rcases h12 with h | ⟨he, hg⟩
  · rcases h23 with h2 | ⟨he2, _⟩
    · exact Or.inl (Nat.lt_trans h h2)
    · exact Or.inl (he2 ▸ h)
  · rcases h23 with h2 | ⟨he2, hg2⟩
    · exact Or.inl (he ▸ h2)
    · exact Or.inr ⟨by omega, ltBytes_trans n1 n2 n3 hg hg2⟩

theorem keyBeats_asymm {t1 t2 : Nat} {n1 n2 : List Nat}
    (h : t1 < t2 ∨ (t2 = t1 ∧ gtBytes n2 n1 = true)) :
    ¬ (t2 < t1 ∨ (t1 = t2 ∧ gtBytes n1 n2 = true)) := by
  rcases h with h | ⟨he, hg⟩
  · rintro (h2 | ⟨he2, _⟩) <;> omega
  · rintro (h2 | ⟨he2, hg2⟩)
    · omega
    · have hf : ltBytes n2 n1 = false := ltBytes_asymm n1 n2 hg
      have ht : ltBytes n2 n1 = true := hg2
      rw [hf] at ht
      exact Bool.noConfusion ht

theorem keyBeats_total {t1 t2 : Nat} {n1 n2 : List Nat}
    (h12 : ¬ (t1 < t2 ∨ (t2 = t1 ∧ gtBytes n2 n1 = true)))
    (h21 : ¬ (t2 < t1 ∨ (t1 = t2 ∧ gtBytes n1 n2 = true))) :
    t1 = t2 ∧ n1 = n2 := by
  rw [not_or] at h12 h21
  obtain ⟨ha, hb⟩ := h12
  obtain ⟨hc, hd⟩ := h21
  have ht : t1 = t2 := by omega
  subst ht
  refine ⟨rfl, ?_⟩
  have h1 : ltBytes n1 n2 = false := by
    cases hx : ltBytes n1 n2 with
    | false => rfl
    | true => exact absurd ⟨rfl, hx⟩ hb
  have h2 : ltBytes n2 n1 = false := by
    cases hx : ltBytes n2 n1 with
    | false => rfl
    | true => exact absurd ⟨rfl, hx⟩ hd
  exact ltBytes_total n1 n2 h1 h2

theorem findStep_skip (b : Nat × List Nat) (e : DirEntry)
    (h : e.isDir = true ∨ endsCsv e.name = false) : findStep b e = b := by
  rcases h with h | h
  · simp [findStep, h]
  · by_cases hd : e.isDir = true <;> simp [findStep, hd, h]

theorem findStep_cand (b : Nat × List Nat) (e : DirEntry)
    (hd : e.isDir = false) (hcsv : endsCsv e.name = true) :
    findStep b e =
      if b.1 < e.time ∨ (e.time = b.1 ∧ gtBytes e.name b.2 = true)
      then (e.time, e.name) else b := by
  simp [findStep, hd, hcsv]

theorem findStep_rightComm (b : Nat × List Nat) (e1 e2 : DirEntry) :
    findStep (findStep b e1) e2 = findStep (findStep b e2) e1 := by
  by_cases h1 : e1.isDir = true ∨ endsCsv e1.name = false
  · rw [findStep_skip b e1 h1, findStep_skip (findStep b e2) e1 h1]
  · by_cases h2 : e2.isDir = true ∨ endsCsv e2.name = false
    · rw [findStep_skip b e2 h2, findStep_skip (findStep b e1) e2 h2]
    · rw [not_or] at h1 h2
      obtain ⟨h1d, h1c⟩ := h1
      obtain ⟨h2d, h2c⟩ := h2
      rw [Bool.not_eq_true] at h1d h2d
      rw [Bool.not_eq_false] at h1c h2c
      rw [findStep_cand b e1 h1d h1c, findStep_cand b e2 h2d h2c]
      by_cases q1 : b.1 < e1.time ∨ (e1.time = b.1 ∧ gtBytes e1.name b.2 = true)
      · rw [if_pos q1, findStep_cand (e1.time, e1.name) e2 h2d h2c]
        by_cases q2 : b.1 < e2.time ∨ (e2.time = b.1 ∧ gtBytes e2.name b.2 = true)
        · rw [if_pos q2, findStep_cand (e2.time, e2.name) e1 h1d h1c]
          by_cases q12 : e1.time < e2.time ∨ (e2.time = e1.time ∧ gtBytes e2.name e1.name = true)
          · rw [if_pos q12, if_neg (keyBeats_asymm q12)]
          · rw [if_neg q12]
            by_cases q21 : e2.time < e1.time ∨ (e1.time = e2.time ∧ gtBytes e1.name e2.name = true)
            · rw [if_pos q21]
            · rw [if_neg q21]
              obtain ⟨ht, hn⟩ := keyBeats_total q21 q12
              rw [ht, hn]
        · rw [if_neg q2, findStep_cand b e1 h1d h1c, if_pos q1]
          have : ¬ (e1.time < e2.time ∨ (e2.time = e1.time ∧ gtBytes e2.name e1.name = true)) :=
            fun hq => q2 (keyBeats_trans q1 hq)
          rw [if_neg this]
      · rw [if_neg q1]
        by_cases q2 : b.1 < e2.time ∨ (e2.time = b.1 ∧ gtBytes e2.name b.2 = true)
        · rw [if_pos q2, findStep_cand (e2.time, e2.name) e1 h1d h1c]
          have hq : ¬ (e2.time < e1.time ∨ (e1.time = e2.time ∧ gtBytes e1.name e2.name = true)) :=
            fun hq => q1 (keyBeats_trans q2 hq)
          rw [if_neg hq, findStep_cand b e2 h2d h2c, if_pos q2]
        · rw [if_neg q2, findStep_cand b e2 h2d h2c, if_neg q2,
            findStep_cand b e1 h1d h1c, if_neg q1]

/-- The fold of the selection loop is invariant under permutation of the
enumeration order. -/
theorem foldl_findStep_perm {l1 l2 : List DirEntry} (h : l1.Perm l2)
    (b : Nat × List Nat) : l1.foldl findStep b = l2.foldl findStep b :=
  h.foldl_eq' (fun x _ y _ z => findStep_rightComm z x y) b

/-- The running best only moves upward in the key order (or stays). -/
theorem findStep_le (b : Nat × List Nat) (e : DirEntry) :
    findStep b e = b
    ∨ (b.1 < (findStep b e).1
       ∨ ((findStep b e).1 = b.1 ∧ gtBytes (findStep b e).2 b.2 = true)) := by
  by_cases h1 : e.isDir = true ∨ endsCsv e.name = false
  · exact Or.inl (findStep_skip b e h1)
  · rw [not_or] at h1
    obtain ⟨h1d, h1c⟩ := h1
    rw [Bool.not_eq_true] at h1d
    rw [Bool.not_eq_false] at h1c
    rw [findStep_cand b e h1d h1c]
    by_cases q : b.1 < e.time ∨ (e.time = b.1 ∧ gtBytes e.name b.2 = true)
    · rw [if_pos q]
      exact Or.inr q
    · rw [if_neg q]
      exact Or.inl rfl

/-- Keys never decrease along the fold. -/
theorem foldl_findStep_ge : ∀ (l : List DirEntry) (b : Nat × List Nat),
    l.foldl findStep b = b
    ∨ (b.1 < (l.foldl findStep b).1
       ∨ ((l.foldl findStep b).1 = b.1
          ∧ gtBytes (l.foldl findStep b).2 b.2 = true)) := by
  intro l
  induction l with
  | nil => intro b; exact Or.inl rfl
  | cons e l ih =>
    intro b
    rw [List.foldl_cons]
    rcases findStep_le b e with h | h
    · rw [h]; exact ih b
    · rcases ih (findStep b e) with h2 | h2
      · rw [h2]; exact Or.inr h
      · exact Or.inr (keyBeats_trans h h2)

/-- Every candidate processed by the fold is dominated by the final best. -/
theorem foldl_findStep_dom : ∀ (l : List DirEntry) (b : Nat × List Nat)
    (e : DirEntry), e ∈ l → e.isDir = false → endsCsv e.name = true →
    e.time < (l.foldl findStep b).1
    ∨ ((l.foldl findStep b).1 = e.time
       ∧ ((l.foldl findStep b).2 = e.name
          ∨ gtBytes (l.foldl findStep b).2 e.name = true)) := by
  intro l
  induction l with
  | nil => intro b e he; exact absurd he (List.not_mem_nil e)
  | cons a l ih =>
    intro b e he hd hcsv
    rw [List.foldl_cons]
    rcases List.mem_cons.mp he with he1 | he2
    · subst he1
      rw [findStep_cand b e hd hcsv]
      by_cases q : b.1 < e.time ∨ (e.time = b.1 ∧ gtBytes e.name b.2 = true)
      · rw [if_pos q]
        rcases foldl_findStep_ge l (e.time, e.name) with h | h
        · rw [h]; exact Or.inr ⟨rfl, Or.inl rfl⟩
        · rcases h with h | ⟨h1, h2⟩
          · exact Or.inl h
          · exact Or.inr ⟨h1, Or.inr h2⟩
      · rw [if_neg q]
        rw [not_or] at q
        obtain ⟨qa, qb⟩ := q
        rcases foldl_findStep_ge l b with h | h
        · rw [h]
          by_cases hte : e.time = b.1
          · refine Or.inr ⟨hte.symm, ?_⟩
            have hgf : ltBytes b.2 e.name = false := by
              cases hx : gtBytes e.name b.2 with
              | false => exact hx
              | true => exact absurd ⟨hte, hx⟩ qb
            cases hx : ltBytes e.name b.2 with
            | false => exact Or.inl (ltBytes_total b.2 e.name hgf hx)
            | true => exact Or.inr hx
          · exact Or.inl (by omega)
        · have heb : e.time < b.1
              ∨ (e.time = b.1 ∧ (e.name = b.2 ∨ ltBytes e.name b.2 = true)) := by
            by_cases hte : e.time = b.1
            · refine Or.inr ⟨hte, ?_⟩
              have hgf : ltBytes b.2 e.name = false := by
                cases hx : gtBytes e.name b.2 with
                | false => exact hx
                | true => exact absurd ⟨hte, hx⟩ qb
              cases hx : ltBytes e.name b.2 with
              | false => exact Or.inl (ltBytes_total e.name b.2 hx hgf)
              | true => exact Or.inr rfl
            · exact Or.inl (by omega)
          rcases heb with heb | ⟨heb1, heb2⟩
          · rcases h with h | ⟨h1, _⟩
            · exact Or.inl (Nat.lt_trans heb h)
            · exact Or.inl (by omega)
          · rcases h with h | ⟨h1, h2⟩
            · exact Or.inl (by omega)
            · refine Or.inr ⟨by omega, ?_⟩
              rcases heb2 with heb2 | heb2
              · exact Or.inr (heb2 ▸ h2)
              · exact Or.inr (ltBytes_trans e.name b.2 (l.foldl findStep b).2 heb2 h2)
    · exact ih (findStep b a) e he2 hd hcsv

/-- The final best is the sentinel or the key of some candidate in the list. -/
theorem foldl_findStep_mem : ∀ (l : List DirEntry) (b : Nat × List Nat),
    l.foldl findStep b = b
    ∨ ∃ e, e ∈ l ∧ e.isDir = false ∧ endsCsv e.name = true
        ∧ l.foldl findStep b = (e.time, e.name) := by
  intro l
  induction l with
  | nil => intro b; exact Or.inl rfl
  | cons a l ih =>
    intro b
    rw [List.foldl_cons]
    by_cases h1 : a.isDir = true ∨ endsCsv a.name = false
    · rw [findStep_skip b a h1]
      rcases ih b with h | ⟨e, he, hd, hc, hf⟩
      · exact Or.inl h
      · exact Or.inr ⟨e, List.mem_cons_of_mem a he, hd, hc, hf⟩
    · rw [not_or] at h1
      obtain ⟨h1d, h1c⟩ := h1
      rw [Bool.not_eq_true] at h1d
      rw [Bool.not_eq_false] at h1c
      rw [findStep_cand b a h1d h1c]
      by_cases q : b.1 < a.time ∨ (a.time = b.1 ∧ gtBytes a.name b.2 = true)
      · rw [if_pos q]
        rcases ih (a.time, a.name) with h | ⟨e, he, hd, hc, hf⟩
        · exact Or.inr ⟨a, List.mem_cons_self a l, h1d, h1c, h⟩
        · exact Or.inr ⟨e, List.mem_cons_of_mem a he, hd, hc, hf⟩
      · rw [if_neg q]
        rcases ih b with h | ⟨e, he, hd, hc, hf⟩
        · exact Or.inl h
        · exact Or.inr ⟨e, List.mem_cons_of_mem a he, hd, hc, hf⟩

/-- Claim C6: latest-file selection is the deterministic maximum under
(last-write time, then name lexicographically), both descending.  For every
directory content, the selection is invariant under the enumeration order of
the entries, and whenever at least one candidate (regular file, prefix match,
case-insensitive `.csv` suffix) exists, the returned path names a candidate
whose (time, name) key dominates every candidate's key. -/
theorem C6_latest_selection (dir pfx : List Nat) (entries entries2 : List DirEntry)
    (hperm : entries.Perm entries2) :
    findLatestCsvByPrefix true entries dir pfx
      = findLatestCsvByPrefix true entries2 dir pfx
    ∧ (∀ e, e ∈ entries → e.isDir = false → pfx.isPrefixOf e.name = true →
        endsCsv e.name = true →
        ∃ w, w ∈ entries ∧ w.isDir = false ∧ pfx.isPrefixOf w.name = true
          ∧ endsCsv w.name = true
          ∧ findLatestCsvByPrefix true entries dir pfx = some (joinPath dir w.name)
          ∧ (e.time < w.time
             ∨ (e.time = w.time
                ∧ (e.name = w.name ∨ ltBytes e.name w.name = true)))) := by
  constructor
  · have hfp := hperm.filter (fun e => pfx.isPrefixOf e.name)
    simp only [findLatestCsvByPrefix]
    by_cases hnil : entries.filter (fun e => pfx.isPrefixOf e.name) = []
    · have hnil2 : entries2.filter (fun e => pfx.isPrefixOf e.name) = [] := by
        rw [hnil] at hfp
        exact hfp.symm.eq_nil
      rw [hnil, hnil2]
    · have hnil2 : ¬ entries2.filter (fun e => pfx.isPrefixOf e.name) = [] := by
        intro h0
        rw [h0] at hfp
        exact hnil hfp.eq_nil
      have htf : ¬ (true = false) := fun h => Bool.noConfusion h
      rw [if_neg htf, if_neg htf, if_neg hnil, if_neg hnil2,
        foldl_findStep_perm hfp ((0 : Nat), ([] : List Nat))]
  · intro e he hd hpfx hcsv
    have hem : e ∈ entries.filter (fun e => pfx.isPrefixOf e.name) :=
      List.mem_filter.mpr ⟨he, hpfx⟩
    have hnil : ¬ entries.filter (fun e => pfx.isPrefixOf e.name) = [] := by
      intro h0
      rw [h0] at hem
      exact List.not_mem_nil e hem
    rcases foldl_findStep_mem (entries.filter (fun e => pfx.isPrefixOf e.name))
        ((0 : Nat), ([] : List Nat)) with hf | ⟨w, hw, hwd, hwc, hf⟩
    · have hdom := foldl_findStep_dom (entries.filter (fun e => pfx.isPrefixOf e.name))
        ((0 : Nat), ([] : List Nat)) e hem hd hcsv
      rw [hf] at hdom
      rcases hdom with h | ⟨h1, h2⟩
      · exact absurd h (by omega)
      · rcases h2 with h2 | h2
        · rw [← h2] at hcsv
          simp [endsCsv] at hcsv
        · have h2' : ltBytes e.name [] = true := h2
          rw [ltBytes_nil_right] at h2'
          exact Bool.noConfusion h2'
    · have hwne : ¬ w.name = [] := by
        intro h0
        rw [h0] at hwc
        simp [endsCsv] at hwc
      refine ⟨w, (List.mem_filter.mp hw).1, hwd, (List.mem_filter.mp hw).2, hwc, ?_, ?_⟩
      · simp only [findLatestCsvByPrefix]
        have htf : ¬ (true = false) := fun h => Bool.noConfusion h
        rw [if_neg htf, if_neg hnil, hf, if_neg hwne]
      · have hdom := foldl_findStep_dom (entries.filter (fun e => pfx.isPrefixOf e.name))
          ((0 : Nat), ([] : List Nat)) e hem hd hcsv
        rw [hf] at hdom
        rcases hdom with h | ⟨h1, h2⟩
        · exact Or.inl h
        · refine Or.inr ⟨h1.symm, ?_⟩
          rcases h2 with h2 | h2
          · exact Or.inl h2.symm
          · exact Or.inr h2

/-- Witness for `C6_latest_selection`: the spec's scenario of an older and a
newer dated file, enumerated in both orders; the newer one is selected. -/
theorem C6_latest_selection_witness :
    findLatestCsvByPrefix true
        [⟨[97, 46, 99, 115, 118], false, 1⟩, ⟨[98, 46, 99, 115, 118], false, 2⟩]
        [] []
      = findLatestCsvByPrefix true
        [⟨[98, 46, 99, 115, 118], false, 2⟩, ⟨[97, 46, 99, 115, 118], false, 1⟩]
        [] []
    ∧ findLatestCsvByPrefix true
        [⟨[97, 46, 99, 115, 118], false, 1⟩, ⟨[98, 46, 99, 115, 118], false, 2⟩]
        [] []
      = some [98, 46, 99, 115, 118] :=
  ⟨(C6_latest_selection [] []
      [⟨[97, 46, 99, 115, 118], false, 1⟩, ⟨[98, 46, 99, 115, 118], false, 2⟩]
      [⟨[98, 46, 99, 115, 118], false, 2⟩, ⟨[97, 46, 99, 115, 118], false, 1⟩]
      (by decide)).1,
   by decide⟩

/-- BOM stripping performed inside `readFileAllShared` after a successful
whole-file read. -/
def stripBom (content : List Nat) : List Nat :=
  if content.take 3 = bomBytes then content.drop 3 else content

/-- The state remembered across ticks by the latest-file watch loop:
`lastPath` and `lastTime` (the `toU64` of the last-write time). -/
structure WatchState where
  lastPath : List Nat
  lastTime : Nat
  deriving Repr, DecidableEq

/-- The timestamp used by the tick: `t` stays 0 when `GetFileAttributesExA`
fails. -/
def attrTimeValue : Option Nat → Nat
  | some t0 => t0
  | none => 0

/-- One tick of the latest-file watch loop of `CreateWatchNew` (lines 143-169).
`latest` is the selector's result (`none` models the empty path); `attrTime`
the outcome of `GetFileAttributesExA` (`t` stays 0 on failure); `readRes` the
outcome of `readFileAllShared` (raw bytes before the BOM strip); `parse` the
external tabular parser, `none` modelling a thrown parse exception, which the
surrounding catch turns into a skipped tick.  The remembered state is updated
only after read and parse both succeed; the returned rows are emitted with the
selected path. -/
def watchNewTick (parse : List Nat → Option (List (List (List Nat))))
    (latest : Option (List Nat)) (attrTime : Option Nat)
    (readRes : Option (List Nat)) (ws : WatchState) :
    WatchState × List (List Nat × List (List Nat)) :=
  match latest with
  | none => (ws, [])
  | some p =>
    let t := attrTimeValue attrTime
    if p ≠ ws.lastPath ∨ ws.lastTime < t then
      match readRes with
      | none => (ws, [])
      | some content =>
        match parse (stripBom content) with
        | none => (ws, [])
        | some rows => ({ lastPath := p, lastTime := t }, rows.map (fun r => (p, r)))
    else (ws, [])

/-- Claim C7: latest-file-mode atomicity.  The remembered `lastPath` and
`lastTime` change only when this tick's whole-file read and parse both
succeeded, in which case they become the selected path and its probed
timestamp; a failed read (or a failed parse, or no re-read trigger) leaves both
remembered values exactly as they were, so the next tick re-evaluates the same
comparison again. -/
theorem C7_latest_mode_atomicity (parse : List Nat → Option (List (List (List Nat))))
    (latest : Option (List Nat)) (attrTime : Option Nat)
    (readRes : Option (List Nat)) (ws : WatchState) :
    ((watchNewTick parse latest attrTime readRes ws).1 ≠ ws →
      ∃ p content rows, latest = some p ∧ readRes = some content
        ∧ parse (stripBom content) = some rows
        ∧ (watchNewTick parse latest attrTime readRes ws).1
            = { lastPath := p, lastTime := attrTimeValue attrTime })
    ∧ (readRes = none → (watchNewTick parse latest attrTime readRes ws).1 = ws)
    ∧ (∀ p content rows, latest = some p → readRes = some content →
        parse (stripBom content) = some rows →
        (p ≠ ws.lastPath ∨ ws.lastTime < attrTimeValue attrTime) →
        (watchNewTick parse latest attrTime readRes ws).1
          = { lastPath := p, lastTime := attrTimeValue attrTime }) := by
  refine ⟨?_, ?_, ?_⟩
  · intro hch
    cases latest with
    | none => exact absurd rfl hch
    | some p =>
      by_cases hcond : p ≠ ws.lastPath ∨ ws.lastTime < attrTimeValue attrTime
      · cases readRes with
        | none =>
          have h0 : (watchNewTick parse (some p) attrTime none ws).1 = ws := by
            simp only [watchNewTick]
            rw [if_pos hcond]
          exact absurd h0 hch
        | some content =>
          cases hpr : parse (stripBom content) with
          | none =>
            have h0 : (watchNewTick parse (some p) attrTime (some content) ws).1 = ws := by
              simp only [watchNewTick]
              rw [if_pos hcond]
              simp [hpr]
            exact absurd h0 hch
          | some rows =>
            refine ⟨p, content, rows, rfl, rfl, hpr, ?_⟩
            simp only [watchNewTick]
            rw [if_pos hcond]
            simp [hpr]
      · have h0 : (watchNewTick parse (some p) attrTime readRes ws).1 = ws := by
          simp only [watchNewTick]
          rw [if_neg hcond]
        exact absurd h0 hch
  · intro hnone
    subst hnone
    cases latest with
    | none => rfl
    | some p =>
      simp only [watchNewTick]
      by_cases hcond : p ≠ ws.lastPath ∨ ws.lastTime < attrTimeValue attrTime
      · rw [if_pos hcond]
      · rw [if_neg hcond]
  · intro p content rows hl hr hpr hcond
    subst hl; subst hr
    simp only [watchNewTick]
    rw [if_pos hcond]
    simp [hpr]

/-- Witness for `C7_latest_mode_atomicity` with a successful read and parse on
a newly selected file: the remembered state becomes the new path and time. -/
theorem C7_latest_mode_atomicity_witness :
    (watchNewTick (fun c => some [[c]]) (some [97]) (some 5) (some [49])
        ({ lastPath := [], lastTime := 0 } : WatchState)).1
      = ({ lastPath := [97], lastTime := 5 } : WatchState) :=
  (C7_latest_mode_atomicity (fun c => some [[c]]) (some [97]) (some 5) (some [49])
    ({ lastPath := [], lastTime := 0 } : WatchState)).2.2
    [97] [49] [[[49]]] rfl rfl (by decide) (by decide)

/-- Model of `to_ms`: a non-positive interval is coerced to a 0 ms wait. -/
def to_ms (seconds : Int) : Nat :=
  if seconds ≤ 0 then 0 else seconds.toNat * 1000

/-- Model of the construction phase of `CreateWatchAppend` (lines 116-137): the
function performs no validation of its arguments and unconditionally starts the
watcher thread; `some` carries the captured path and wait in milliseconds. -/
def CreateWatchAppend (filePath : List Nat) (waitSeconds : Int) :
    Option (List Nat × Nat) :=
  some (filePath, to_ms waitSeconds)

/-- Model of the construction phase of `CreateWatchNew` (lines 139-143): as for
`CreateWatchAppend`, no validation is performed and the loop always starts. -/
def CreateWatchNew (dir pfx : List Nat) (waitSeconds : Int) :
    Option ((List Nat × List Nat) × Nat) :=
  some ((dir, pfx), to_ms waitSeconds)

/-- Claim C9, counterexample: a negative poll interval is not rejected — both
constructors succeed (the loop starts) and the interval is silently coerced to
a 0 ms busy-poll wait. -/
theorem C9_counterexample :
    (CreateWatchAppend [97] (-5)).isSome = true
    ∧ CreateWatchAppend [97] (-5) = some ([97], 0)
    ∧ (CreateWatchNew [100] [] (-5)).isSome = true
    ∧ CreateWatchNew [100] [] (-5) = some (([100], []), 0) := by
  refine ⟨rfl, ?_, rfl, ?_⟩ <;>
    simp [CreateWatchAppend, CreateWatchNew, to_ms]

/-- Claim C9 (amended): the watch-loop constructors perform no argument
validation at construction time; for every poll interval (negative included)
construction succeeds and the loop starts, a non-positive interval being
coerced to a 0 ms wait by `to_ms`. -/
theorem C9_no_construction_validation (filePath dir pfx : List Nat)
    (waitSeconds : Int) :
    (CreateWatchAppend filePath waitSeconds).isSome = true
    ∧ (CreateWatchNew dir pfx waitSeconds).isSome = true
    ∧ (waitSeconds ≤ 0 →
        CreateWatchAppend filePath waitSeconds = some (filePath, 0)
        ∧ CreateWatchNew dir pfx waitSeconds = some ((dir, pfx), 0)) := by
  refine ⟨rfl, rfl, fun hle => ?_⟩
  constructor <;> simp [CreateWatchAppend, CreateWatchNew, to_ms, hle]

/-- Witness for `C9_no_construction_validation` at a negative interval. -/
theorem C9_no_construction_validation_witness :
    CreateWatchAppend [97] (-3) = some ([97], 0)
    ∧ CreateWatchNew [100] [101] (-3) = some (([100], [101]), 0) :=
  (C9_no_construction_validation [97] [100] [101] (-3)).2.2 (by decide)

end FileWatchers

end WinFileScan
